import Mathlib

/-!
# Three priority-queue engines of `pq3.cpp`

A shallow embedding of the sorted linked list, the array-backed max-heap (`DynArray`) and the
vector of FIFO queues that `main` drives, followed by the properties proved about them.

Modelling conventions.

* A `pair<int, int>` is an `Entry = Int × Int`, `(priority, payload)`.  C++ `int`s are modelled as
  unbounded integers: the engines only compare and copy priorities, and sizes, capacities and
  bucket indices stay far below `2^31` for any input that fits in memory.
* A `Node*` chain is the list of its entries from the head on; `NULL` is `[]`.
* A heap buffer `pair<int,int>*` is `Option (List Entry)`: `none` is `NULL`, `some b` is an
  allocation of `b.length` slots (`new pair<int,int>[n]` value-initialises every slot to `(0, 0)`).
* `vector<queue<int>*>` is a list of `Option (List Int)`: `none` is `nullptr`, `some q` is an
  allocated queue whose front is the head of `q`.
-/

namespace PQ3

/-- A `pair<int, int>`: `(priority, payload)`. -/
abbrev Entry := Int × Int

/-! ## Linked list -/

/-- The `while` loop of `insert` together with the two link assignments after it, seen from
`current`: the argument is the chain `current->next`, the result is the new `current->next`. -/
def insertScan (p1 : Entry) : List Entry → List Entry
  | [] => [p1]
  | n :: rest => if p1.1 ≤ n.1 then n :: insertScan p1 rest else p1 :: n :: rest

/-- The function `insert(Node **pq, pair<int,int> p1)`, for the non-null chain `hd :: next`. -/
def insert (hd : Entry) (next : List Entry) (p1 : Entry) : List Entry :=
  if p1.1 > hd.1 then p1 :: hd :: next else hd :: insertScan p1 next

/-- The function `deleteMax(Node **pq)`, for the non-null chain `hd :: next`: the printed entry
and the new chain. -/
def deleteMax (hd : Entry) (next : List Entry) : Entry × List Entry := (hd, next)

/-- The function `peek(Node **pq)`, for the non-null chain `hd :: next`: the printed entry. -/
def peek (hd : Entry) (_next : List Entry) : Entry := hd

/-- Command `i 1` of `main`. -/
def listInsert (pq : List Entry) (p1 : Entry) : List Entry :=
  match pq with
  | [] => [p1]
  | hd :: next => insert hd next p1

/-- Command `d 1` of `main`: the printed entry, if any, and the new chain. -/
def listDeleteMax (pq : List Entry) : Option Entry × List Entry :=
  match pq with
  | [] => (none, [])
  | hd :: next => (some (deleteMax hd next).1, (deleteMax hd next).2)

/-- Command `l 1` of `main`. -/
def listPeek (pq : List Entry) : Option Entry :=
  match pq with
  | [] => none
  | hd :: next => some (peek hd next)

/-- The list part of command `r`. -/
def listReset (_pq : List Entry) : List Entry := []

/-- Run `n` commands `d 1`, collecting the printed entries. -/
def listDeletes : Nat → List Entry → List Entry × List Entry
  | 0, pq => ([], pq)
  | n + 1, pq =>
    ((listDeleteMax pq).1.toList ++ (listDeletes n (listDeleteMax pq).2).1,
      (listDeletes n (listDeleteMax pq).2).2)

/-- The entries printed by draining a chain: one `d 1` per stored entry. -/
def listDrain (pq : List Entry) : List Entry := (listDeletes pq.length pq).1

/-- The list `output` is `input` stably sorted by descending priority: the same entries, in
non-increasing priority order, and for each priority the entries of that priority in the order
they have in `input`. -/
def IsStableSortDesc (input output : List Entry) : Prop :=
  List.Perm output input ∧ List.Sorted (fun a b : Entry => a.1 ≥ b.1) output ∧
  ∀ q : Int, output.filter (fun e => decide (e.1 = q)) = input.filter (fun e => decide (e.1 = q))

/-- The insertion sequence stably sorted by descending priority, as a library insertion sort on
the order "priority at least". -/
def stableSortDesc (ps : List Entry) : List Entry :=
  List.insertionSort (fun a b : Entry => a.1 ≥ b.1) ps

/-! ## Max-heap over a dynamic array -/

/-- Read `arr[i]`. -/
def rd (arr : List Entry) (i : Nat) : Entry := arr.getD i (0, 0)

/-- Write `arr[i] = e`. -/
def wr (arr : List Entry) (i : Nat) (e : Entry) : List Entry := arr.set i e

/-- The method `DynArray::parent`: `(i - 1) / 2` with C++ truncating division. -/
def parent (i : Int) : Int := Int.tdiv (i - 1) 2

/-- The method `DynArray::left`. -/
def left (i : Nat) : Nat := 2 * i + 1

/-- The method `DynArray::right`. -/
def right (i : Nat) : Nat := 2 * i + 2

/-- The sift-up loop of `DynArray::insert`, started with the new entry at index `i`. -/
def siftUp (arr : List Entry) (i : Nat) : List Entry :=
  if h : 0 ≤ parent i ∧ (rd arr (parent i).toNat).1 < (rd arr i).1 then
    let pt := (parent i).toNat
    let tmp := rd arr pt
    siftUp (wr (wr arr pt (rd arr i)) i tmp) pt
  else arr
termination_by i
decreasing_by
  rcases Nat.eq_zero_or_pos i with h0 | h0
  · subst h0
    have h1 : parent ((0 : Nat) : Int) = 0 := by decide
    rw [h1] at h
    simp at h
  · have h2 : ((i : Int) - 1) = ((i - 1 : Nat) : Int) := by omega
    have h1 : parent (i : Int) = (((i - 1) / 2 : Nat) : Int) := by
      unfold parent
      rw [h2]
      rfl
    rw [h1]
    simp only [Int.toNat_ofNat]
    omega

/-- The sift-up loop run for at most `fuel` rounds (used to evaluate `siftUp`). -/
def siftUpFuel : Nat → List Entry → Nat → List Entry
  | 0, arr, _ => arr
  | fuel + 1, arr, i =>
    if 0 ≤ parent i ∧ (rd arr (parent i).toNat).1 < (rd arr i).1 then
      siftUpFuel fuel (wr (wr arr (parent i).toNat (rd arr i)) i (rd arr (parent i).toNat))
        (parent i).toNat
    else arr

/-- The index of the larger child chosen by one round of the sift-down loop. -/
def largerChild (arr : List Entry) (size i : Nat) : Nat :=
  if right i < size ∧ (rd arr (right i)).1 > (rd arr (left i)).1 then right i else left i

/-- The sift-down loop of `DynArray::deleteMax`, at index `i` of a heap of `size` entries. -/
def siftDown (arr : List Entry) (size i : Nat) : List Entry :=
  if h : left i < size then
    let j := largerChild arr size i
    if (rd arr i).1 > (rd arr j).1 then arr
    else
      let tmp := rd arr i
      siftDown (wr (wr arr i (rd arr j)) j tmp) size j
  else arr
termination_by size - i
decreasing_by
  have hj : i < largerChild arr size i ∧ largerChild arr size i < size := by
    unfold largerChild
    split
    · rename_i hc
      exact ⟨by unfold right; omega, hc.1⟩
    · exact ⟨by unfold left; omega, h⟩
  omega

/-- The sift-down loop run for at most `fuel` rounds (used to evaluate `siftDown`). -/
def siftDownFuel : Nat → List Entry → Nat → Nat → List Entry
  | 0, arr, _, _ => arr
  | fuel + 1, arr, size, i =>
    if left i < size then
      if (rd arr i).1 > (rd arr (largerChild arr size i)).1 then arr
      else
        siftDownFuel fuel
          (wr (wr arr i (rd arr (largerChild arr size i))) (largerChild arr size i) (rd arr i))
          size (largerChild arr size i)
    else arr

/-- The copy loop `for (int i = 0; i < n; ++i) tmp[i] = arr[i];`. -/
def copyLoop : Nat → List Entry → List Entry → List Entry
  | 0, tmp, _ => tmp
  | n + 1, tmp, arr => wr (copyLoop n tmp arr) n (rd arr n)

/-- The class `DynArray`. -/
structure DynArray where
  size : Nat
  cap : Nat
  arr : Option (List Entry)
deriving DecidableEq, Repr

namespace DynArray

/-- A freshly constructed `DynArray`: `size = 0`, `cap = 0`, `arr = NULL`. -/
def empty : DynArray := { size := 0, cap := 0, arr := none }

/-- The slots behind `arr` (none when `arr` is `NULL`). -/
def buf (h : DynArray) : List Entry := h.arr.getD []

/-- The method `DynArray::reset`. -/
def reset (_h : DynArray) : DynArray := { size := 0, cap := 0, arr := none }

/-- The growth step at the head of `DynArray::insert`. -/
def grow (h : DynArray) : DynArray :=
  if h.size = 0 then
    { h with arr := some [(0, 0)], cap := h.cap + 1 }
  else if h.size = h.cap then
    { h with cap := h.cap * 2,
             arr := some (copyLoop h.size (List.replicate (h.cap * 2) (0, 0)) h.buf) }
  else h

/-- The method `DynArray::insert`. -/
def insert (h : DynArray) (p : Entry) : DynArray :=
  { size := (grow h).size + 1
    cap := (grow h).cap
    arr := some (siftUp (wr (grow h).buf (grow h).size p) (grow h).size) }

/-- The shrink step at the end of `DynArray::deleteMax`, applied to the sifted buffer `a` holding
`size` entries.  The guard `size <= 0.25 * cap` is `4 * size ≤ cap`. -/
def shrink (size cap : Nat) (a : List Entry) : DynArray :=
  if 4 * size ≤ cap then
    { size := size, cap := size * 2,
      arr := some (copyLoop size (List.replicate (size * 2) (0, 0)) a) }
  else { size := size, cap := cap, arr := some a }

/-- The method `DynArray::deleteMax` (called by `main` only when `size != 0`): the printed entry
and the new state. -/
def deleteMax (h : DynArray) : Entry × DynArray :=
  (rd h.buf 0,
    shrink (h.size - 1) h.cap (siftDown (wr h.buf 0 (rd h.buf (h.size - 1))) (h.size - 1) 0))

/-- The method `DynArray::peek`: the printed entry. -/
def peek (h : DynArray) : Entry := rd h.buf 0

end DynArray

/-- Command `i 2` of `main`. -/
def heapInsert (h : DynArray) (p1 : Entry) : DynArray := h.insert p1

/-- Command `d 2` of `main`: the printed entry, if any, and the new state. -/
def heapDeleteMax (h : DynArray) : Option Entry × DynArray :=
  if h.size ≠ 0 then (some h.deleteMax.1, h.deleteMax.2) else (none, h)

/-- Command `l 2` of `main`. -/
def heapPeek (h : DynArray) : Option Entry :=
  if h.size ≠ 0 then some h.peek else none

/-- Run `n` commands `d 2`, collecting the printed entries. -/
def heapDeletes : Nat → DynArray → List Entry × DynArray
  | 0, h => ([], h)
  | n + 1, h =>
    ((heapDeleteMax h).1.toList ++ (heapDeletes n (heapDeleteMax h).2).1,
      (heapDeletes n (heapDeleteMax h).2).2)

/-- The entries a heap stores: the first `size` slots of its buffer. -/
def DynArray.entries (h : DynArray) : List Entry := h.buf.take h.size

/-- The entries printed by draining a heap: one `d 2` per stored entry. -/
def heapDrain (h : DynArray) : List Entry := (heapDeletes h.size h).1

/-- The commands that reach the heap engine. -/
inductive HeapOp where
  | insert (p1 : Entry)
  | deleteMax
  | peek
  | reset
deriving DecidableEq, Repr

/-- One heap command: the new state. -/
def heapStep (h : DynArray) : HeapOp → DynArray
  | .insert p1 => heapInsert h p1
  | .deleteMax => (heapDeleteMax h).2
  | .peek => h
  | .reset => h.reset

/-- The heap state after a sequence of commands, starting from the fresh heap. -/
def heapRun (ops : List HeapOp) : DynArray := ops.foldl heapStep DynArray.empty

/-- Heap order on the first `n` slots: every non-root slot is at most its parent. -/
def HeapOrdered (arr : List Entry) (n : Nat) : Prop :=
  ∀ i, 1 ≤ i → i < n → (rd arr i).1 ≤ (rd arr ((i - 1) / 2)).1

/-- Heap order on the first `n` slots except possibly between slot `i` and its parent, with the
children of `i` already below the parent of `i`: the state between rounds of sift-up. -/
def UpInv (arr : List Entry) (n i : Nat) : Prop :=
  (∀ j, 1 ≤ j → j < n → j ≠ i → (rd arr j).1 ≤ (rd arr ((j - 1) / 2)).1) ∧
  (∀ c, 1 ≤ c → c < n → (c - 1) / 2 = i → 1 ≤ i → (rd arr c).1 ≤ (rd arr ((i - 1) / 2)).1)

/-- Heap order on the first `n` slots except possibly between slot `i` and its children, with the
children of `i` already below the parent of `i`: the state between rounds of sift-down. -/
def DownInv (arr : List Entry) (n i : Nat) : Prop :=
  (∀ j, 1 ≤ j → j < n → (j - 1) / 2 ≠ i → (rd arr j).1 ≤ (rd arr ((j - 1) / 2)).1) ∧
  (∀ c, 1 ≤ c → c < n → (c - 1) / 2 = i → 1 ≤ i → (rd arr c).1 ≤ (rd arr ((i - 1) / 2)).1)

/-- The representation invariant of a `DynArray`: the buffer has `cap` slots, holds `size ≤ cap`
entries with `cap ≤ 4 * size`, and its first `size` slots are in heap order. -/
def DynArray.Inv (h : DynArray) : Prop :=
  h.buf.length = h.cap ∧ h.size ≤ h.cap ∧ h.cap ≤ 4 * h.size ∧ HeapOrdered h.buf h.size

/-! ## Vector of queues -/

/-- A `vector<queue<int>*>`. -/
abbrev Buckets := List (Option (List Int))

/-- The call `v.resize(n, nullptr)`. -/
def resize (v : Buckets) (n : Nat) : Buckets := v.take n ++ List.replicate (n - v.length) none

/-- Command `i 3` of `main`. -/
def bucketInsert (v : Buckets) (p1 : Entry) : Buckets :=
  let v1 := if (v.length : Int) ≤ p1.1 then resize v (p1.1 + 1).toNat else v
  let new_q : List Int := (v1.getD p1.1.toNat none).getD []
  v1.set p1.1.toNat (some (new_q ++ [p1.2]))

/-- The trimming loop `while (!v.empty()) { if (v.back()) break; delete v.back(); v.pop_back(); }`:
null slots are popped off the back. -/
def trimNull (v : Buckets) : Buckets := v.rdropWhile (fun b => b.isNone)

/-- Command `d 3` of `main`: the printed entry, if any, and the new vector. -/
def bucketDeleteMax (v : Buckets) : Option Entry × Buckets :=
  if (v.length : Int) - 1 ≤ 0 then (none, v)
  else
    let q : List Int := (v.getD (v.length - 1) none).getD []
    let out : Entry := ((v.length : Int) - 1, q.headD 0)
    if q.tail.isEmpty then (some out, trimNull v.dropLast)
    else (some out, v.set (v.length - 1) (some q.tail))

/-- Command `l 3` of `main`. -/
def bucketPeek (v : Buckets) : Option Entry :=
  if (v.length : Int) - 1 ≤ 0 then none
  else
    let q : List Int := (v.getD (v.length - 1) none).getD []
    if ¬ q.isEmpty then some ((v.length : Int) - 1, q.headD 0) else none

/-- The bucket part of command `r`, `while (!v.empty()) { delete v.back(); v.pop_back(); }`:
slots are popped off the back with no break. -/
def bucketReset (v : Buckets) : Buckets := v.rdropWhile (fun _ => true)

/-- Run `n` commands `d 3`, collecting the printed entries. -/
def bucketDeletes : Nat → Buckets → List Entry × Buckets
  | 0, v => ([], v)
  | n + 1, v =>
    ((bucketDeleteMax v).1.toList ++ (bucketDeletes n (bucketDeleteMax v).2).1,
      (bucketDeletes n (bucketDeleteMax v).2).2)

/-- The entries held by the slots from index `k` on: payload `x` of the queue in slot `i` is the
entry `(i, x)`. -/
def storedFrom : Nat → Buckets → List Entry
  | _, [] => []
  | k, b :: rest => (b.getD []).map (fun x => ((k : Int), x)) ++ storedFrom (k + 1) rest

/-- The entries a bucket vector stores. -/
def stored (v : Buckets) : List Entry := storedFrom 0 v

/-- The commands that reach the bucket engine. -/
inductive BucketOp where
  | insert (p1 : Entry)
  | deleteMax
  | peek
  | reset
deriving DecidableEq, Repr

/-- One bucket command: the new vector. -/
def bucketStep (v : Buckets) : BucketOp → Buckets
  | .insert p1 => bucketInsert v p1
  | .deleteMax => (bucketDeleteMax v).2
  | .peek => v
  | .reset => bucketReset v

/-- Only non-negative priorities are inserted. -/
def BucketOp.valid : BucketOp → Bool
  | .insert p1 => decide (0 ≤ p1.1)
  | _ => true

/-- The bucket vector after a sequence of commands, starting from the empty vector. -/
def bucketRun (ops : List BucketOp) : Buckets := ops.foldl bucketStep []

/-- The representation invariant of the bucket vector: every allocated queue is non-empty, and
the vector is empty or ends in an allocated (hence non-empty) queue. -/
def BInv (v : Buckets) : Prop :=
  (∀ q : List Int, some q ∈ v → q ≠ []) ∧
  (v = [] ∨ ∃ (init : Buckets) (q : List Int), v = init ++ [some q])

/-! ## Runs of list commands -/

/-- The commands that reach the list engine. -/
inductive ListOp where
  | insert (p1 : Entry)
  | deleteMax
  | peek
  | reset
deriving DecidableEq, Repr

/-- One list command: the new chain. -/
def listStep (pq : List Entry) : ListOp → List Entry
  | .insert p1 => listInsert pq p1
  | .deleteMax => (listDeleteMax pq).2
  | .peek => pq
  | .reset => listReset pq

/-- The chain after a sequence of commands, starting from `pq = NULL`. -/
def listRun (ops : List ListOp) : List Entry := ops.foldl listStep []

/-! ## Bounded runs of the sift loops -/

/-- The sift-up loop allowed at most `fuel` evaluations of its guard: `none` when the guard still
holds after `fuel` rounds. -/
def siftUpLoop : Nat → List Entry → Nat → Option (List Entry)
  | 0, _, _ => none
  | fuel + 1, arr, i =>
    if 0 ≤ parent i ∧ (rd arr (parent i).toNat).1 < (rd arr i).1 then
      siftUpLoop fuel (wr (wr arr (parent i).toNat (rd arr i)) i (rd arr (parent i).toNat))
        (parent i).toNat
    else some arr

/-- The sift-down loop allowed at most `fuel` evaluations of its guard: `none` when the loop has
not left after `fuel` rounds. -/
def siftDownLoop : Nat → List Entry → Nat → Nat → Option (List Entry)
  | 0, _, _, _ => none
  | fuel + 1, arr, size, i =>
    if left i < size then
      if (rd arr i).1 > (rd arr (largerChild arr size i)).1 then some arr
      else
        siftDownLoop fuel
          (wr (wr arr i (rd arr (largerChild arr size i))) (largerChild arr size i) (rd arr i))
          size (largerChild arr size i)
    else some arr

/-! ## Bounds-checked heap operations

The same code with every array access checked against the length of the buffer it touches:
`none` is an access outside the allocation. -/

/-- The sift-up loop with checked accesses: each evaluation of the guard reads `arr[pt]` and
`arr[i]`, and the body reads and writes the same two slots. -/
def siftUpC (arr : List Entry) (i : Nat) : Option (List Entry) :=
  if h0 : 0 ≤ parent i then
    if (parent i).toNat < arr.length ∧ i < arr.length then
      if h : (rd arr (parent i).toNat).1 < (rd arr i).1 then
        siftUpC (wr (wr arr (parent i).toNat (rd arr i)) i (rd arr (parent i).toNat))
          (parent i).toNat
      else some arr
    else none
  else some arr
termination_by i
decreasing_by
  rcases Nat.eq_zero_or_pos i with hz | hz
  · subst hz
    have h1 : parent ((0 : Nat) : Int) = 0 := by decide
    rw [h1] at h
    simp at h
  · have h2 : ((i : Int) - 1) = ((i - 1 : Nat) : Int) := by omega
    have h1 : parent (i : Int) = (((i - 1) / 2 : Nat) : Int) := by
      unfold parent
      rw [h2]
      rfl
    rw [h1]
    simp only [Int.toNat_ofNat]
    omega

/-- The sift-down loop with checked accesses: a round reads `arr[rt]` only when `rt < size`, and
reads `arr[lt]` and `arr[i]`; the swap touches `i` and the chosen child. -/
def siftDownC (arr : List Entry) (size i : Nat) : Option (List Entry) :=
  if h : left i < size then
    if (right i < size → right i < arr.length) ∧ left i < arr.length ∧ i < arr.length then
      if (rd arr i).1 > (rd arr (largerChild arr size i)).1 then some arr
      else
        siftDownC
          (wr (wr arr i (rd arr (largerChild arr size i))) (largerChild arr size i) (rd arr i))
          size (largerChild arr size i)
    else none
  else some arr
termination_by size - i
decreasing_by
  have hj : i < largerChild arr size i ∧ largerChild arr size i < size := by
    unfold largerChild
    split
    · rename_i hc
      exact ⟨by unfold right; omega, hc.1⟩
    · exact ⟨by unfold left; omega, h⟩
  omega

/-- The copy loop with checked accesses: round `i` reads `arr[i]` and writes `tmp[i]`. -/
def copyLoopC : Nat → List Entry → List Entry → Option (List Entry)
  | 0, tmp, _ => some tmp
  | n + 1, tmp, arr =>
    (copyLoopC n tmp arr).bind fun t =>
      if n < arr.length ∧ n < t.length then some (wr t n (rd arr n)) else none

/-- The growth step of `DynArray::insert` with checked accesses. -/
def DynArray.growC (h : DynArray) : Option DynArray :=
  if h.size = 0 then
    some { h with arr := some [(0, 0)], cap := h.cap + 1 }
  else if h.size = h.cap then
    (copyLoopC h.size (List.replicate (h.cap * 2) (0, 0)) h.buf).map fun t =>
      DynArray.mk h.size (h.cap * 2) (some t)
  else some h

/-- The method `DynArray::insert` with checked accesses: after the growth step it writes
`arr[size]` and sifts up. -/
def DynArray.insertC (h : DynArray) (p : Entry) : Option DynArray :=
  h.growC.bind fun g =>
    if g.size < g.buf.length then
      (siftUpC (wr g.buf g.size p) g.size).map fun a => DynArray.mk (g.size + 1) g.cap (some a)
    else none

/-- The shrink step of `DynArray::deleteMax` with checked accesses. -/
def DynArray.shrinkC (size cap : Nat) (a : List Entry) : Option DynArray :=
  if 4 * size ≤ cap then
    (copyLoopC size (List.replicate (size * 2) (0, 0)) a).map fun t =>
      DynArray.mk size (size * 2) (some t)
  else some (DynArray.mk size cap (some a))

/-- The method `DynArray::deleteMax` with checked accesses: it reads `arr[0]` and `arr[size]`
(after the decrement), writes `arr[0]`, sifts down and shrinks. -/
def DynArray.deleteMaxC (h : DynArray) : Option (Entry × DynArray) :=
  if 0 < h.buf.length ∧ h.size - 1 < h.buf.length then
    (siftDownC (wr h.buf 0 (rd h.buf (h.size - 1))) (h.size - 1) 0).bind fun a =>
      (DynArray.shrinkC (h.size - 1) h.cap a).map fun s => (rd h.buf 0, s)
  else none

/-- The method `DynArray::peek` with checked accesses: it reads `arr[0]`. -/
def DynArray.peekC (h : DynArray) : Option Entry :=
  if 0 < h.buf.length then some (rd h.buf 0) else none

/-! ## Insertion history of the bucket engine -/

/-- The payloads queued in slot `i` of a bucket vector, front first (none for a null slot or an
index past the end). -/
def slot (v : Buckets) (i : Nat) : List Int := (v.getD i none).getD []

/-- One bucket command on the vector together with its history: the entries inserted since the
last reset and not yet printed by a deleteMax, in insertion order.  An insert appends its entry,
a deleteMax removes the earliest occurrence of the entry it prints, a reset clears. -/
def histStep (s : Buckets × List Entry) : BucketOp → Buckets × List Entry
  | .insert p1 => (bucketInsert s.1 p1, s.2 ++ [p1])
  | .deleteMax =>
    ((bucketDeleteMax s.1).2,
      match (bucketDeleteMax s.1).1 with
      | none => s.2
      | some e => s.2.erase e)
  | .peek => s
  | .reset => (bucketReset s.1, [])

/-- The bucket vector and its history after a sequence of commands. -/
def bucketHist (ops : List BucketOp) : Buckets × List Entry := ops.foldl histStep ([], [])

/-- The entries inserted and not yet printed after a sequence of commands, earliest first. -/
def bucketPending (ops : List BucketOp) : List Entry := (bucketHist ops).2

/-- The bucket vector `v` holds exactly the history `a`: the invariant holds, the stored entries
are those of `a`, and each slot queues the payloads of its priority in the order of `a`. -/
def BRel (v : Buckets) (a : List Entry) : Prop :=
  BInv v ∧ List.Perm (stored v) a ∧
  ∀ i : Nat, slot v i = (a.filter (fun e => decide (e.1 = (i : Int)))).map Prod.snd

/-! ## Index arithmetic and the sift loops -/

theorem parent_eq (i : Nat) : parent (i : Int) = (((i - 1) / 2 : Nat) : Int) := by
  rcases Nat.eq_zero_or_pos i with h0 | h0
  · subst h0
    decide
  · have h2 : ((i : Int) - 1) = ((i - 1 : Nat) : Int) := by omega
    unfold parent
    rw [h2]
    rfl

theorem parent_toNat (i : Nat) : (parent (i : Int)).toNat = (i - 1) / 2 := by
  rw [parent_eq]
  rfl

theorem parent_nonneg (i : Nat) : 0 ≤ parent (i : Int) := by
  rw [parent_eq]
  exact Int.ofNat_nonneg _

theorem siftUp_eq_fuel (fuel : Nat) : ∀ (arr : List Entry) (i : Nat), i < fuel →
    siftUp arr i = siftUpFuel fuel arr i := by
  induction fuel with
  | zero => intro arr i h; omega
  | succ f ih =>
    intro arr i h
    rw [siftUp, siftUpFuel]
    by_cases hc : 0 ≤ parent i ∧ (rd arr (parent i).toNat).1 < (rd arr i).1
    · rw [dif_pos hc, if_pos hc]
      apply ih
      have h1 := parent_toNat i
      have h2 : i ≠ 0 := by
        rintro rfl
        rw [h1] at hc
        simp at hc
      omega
    · rw [dif_neg hc, if_neg hc]

theorem siftUp_eval (arr : List Entry) (i : Nat) : siftUp arr i = siftUpFuel (i + 1) arr i :=
  siftUp_eq_fuel (i + 1) arr i (Nat.lt_succ_self i)

theorem largerChild_bounds (arr : List Entry) (size i : Nat) (h : left i < size) :
    i < largerChild arr size i ∧ largerChild arr size i < size := by
  unfold largerChild
  split
  · rename_i hc
    exact ⟨by unfold right; omega, hc.1⟩
  · exact ⟨by unfold left; omega, h⟩

theorem siftDown_eq_fuel (fuel : Nat) : ∀ (arr : List Entry) (size i : Nat), size - i ≤ fuel →
    siftDown arr size i = siftDownFuel fuel arr size i := by
  induction fuel with
  | zero =>
    intro arr size i h
    rw [siftDown, siftDownFuel]
    have : ¬ left i < size := by unfold left; omega
    rw [dif_neg this]
  | succ f ih =>
    intro arr size i h
    rw [siftDown, siftDownFuel]
    by_cases hc : left i < size
    · rw [dif_pos hc, if_pos hc]
      by_cases hb : (rd arr i).1 > (rd arr (largerChild arr size i)).1
      · simp only [hb, if_true]
      · simp only [hb, if_false]
        apply ih
        have := largerChild_bounds arr size i hc
        omega
    · rw [dif_neg hc, if_neg hc]

theorem siftDown_eval (arr : List Entry) (size i : Nat) :
    siftDown arr size i = siftDownFuel size arr size i :=
  siftDown_eq_fuel size arr size i (Nat.sub_le size i)

/-! ## Reading and writing slots -/

theorem rd_wr (a : List Entry) (i j : Nat) (e : Entry) :
    rd (wr a i e) j = if i = j ∧ i < a.length then e else rd a j := by
  unfold rd wr
  simp only [List.getD_eq_getElem?_getD, List.getElem?_set]
  by_cases h : i = j
  · subst h
    by_cases h2 : i < a.length
    · simp [h2]
    · have h3 : a[i]? = none := List.getElem?_eq_none (by omega)
      simp [h2, h3]
  · simp [h]

theorem length_wr (a : List Entry) (i : Nat) (e : Entry) : (wr a i e).length = a.length := by
  unfold wr
  exact List.length_set _ _ _

theorem rd_swap (a : List Entry) (x y k : Nat) (hx : x < a.length) (hy : y < a.length) :
    rd (wr (wr a x (rd a y)) y (rd a x)) k
      = if k = y then rd a x else if k = x then rd a y else rd a k := by
  rw [rd_wr, rd_wr, length_wr]
  by_cases h1 : k = y
  · subst h1
    simp [hy]
  · by_cases h2 : k = x
    · subst h2
      have : ¬ y = k := fun h => h1 h.symm
      simp [hx, this, h1]
    · have h3 : ¬ y = k := fun h => h1 h.symm
      have h4 : ¬ x = k := fun h => h2 h.symm
      simp [h1, h2, h3, h4]

theorem rd_eq_getElem (a : List Entry) (i : Nat) (h : i < a.length) : rd a i = a[i] := by
  unfold rd
  rw [List.getD_eq_getElem?_getD, List.getElem?_eq_getElem h]
  rfl

theorem take_succ_rd (a : List Entry) (n : Nat) (h : n < a.length) :
    a.take (n + 1) = a.take n ++ [rd a n] := by
  rw [List.take_succ, List.getElem?_eq_getElem h, rd_eq_getElem a n h]
  rfl

theorem rd_take (a : List Entry) (n i : Nat) (h : i < n) : rd (a.take n) i = rd a i := by
  unfold rd
  simp only [List.getD_eq_getElem?_getD, List.getElem?_take, h, if_true]

/-! ## Swapping two slots permutes the stored entries -/

theorem cons_set_perm (d a : Entry) : ∀ (t : List Entry) (k : Nat), k < t.length →
    List.Perm (t.getD k d :: t.set k a) (a :: t) := by
  intro t
  induction t with
  | nil => intro k h; simp at h
  | cons b t ih =>
    intro k h
    cases k with
    | zero =>
      simp only [List.getD_cons_zero, List.set_cons_zero]
      exact List.Perm.swap _ _ _
    | succ k =>
      simp only [List.getD_cons_succ, List.set_cons_succ]
      have h1 : k < t.length := by simpa using h
      exact (List.Perm.swap _ _ _).trans (((ih k h1).cons b).trans (List.Perm.swap _ _ _))

theorem set_set_perm (d : Entry) : ∀ (l : List Entry) (x y : Nat), x < l.length → y < l.length →
    List.Perm ((l.set x (l.getD y d)).set y (l.getD x d)) l := by
  intro l
  induction l with
  | nil => intro x y hx; simp at hx
  | cons a t ih =>
    intro x y hx hy
    cases x with
    | zero =>
      cases y with
      | zero => simp
      | succ y =>
        simp only [List.getD_cons_succ, List.set_cons_zero, List.getD_cons_zero,
          List.set_cons_succ]
        exact cons_set_perm d a t y (by simpa using hy)
    | succ x =>
      cases y with
      | zero =>
        simp only [List.getD_cons_succ, List.set_cons_zero, List.getD_cons_zero,
          List.set_cons_succ]
        exact cons_set_perm d a t x (by simpa using hx)
      | succ y =>
        simp only [List.getD_cons_succ, List.set_cons_succ]
        exact (ih x y (by simpa using hx) (by simpa using hy)).cons a

theorem take_swap_perm (a : List Entry) (n x y : Nat) (hx : x < n) (hy : y < n)
    (hn : n ≤ a.length) :
    List.Perm ((wr (wr a x (rd a y)) y (rd a x)).take n) (a.take n) := by
  unfold wr
  rw [List.set_take, List.set_take, ← rd_take a n y hy, ← rd_take a n x hx]
  unfold rd
  apply set_set_perm
  · rw [List.length_take]; omega
  · rw [List.length_take]; omega

/-! ## Sift-up -/

theorem siftUp_guard_pos (arr : List Entry) (i : Nat)
    (hc : 0 ≤ parent i ∧ (rd arr (parent i).toNat).1 < (rd arr i).1) :
    1 ≤ i ∧ (rd arr ((i - 1) / 2)).1 < (rd arr i).1 := by
  rw [parent_toNat] at hc
  refine ⟨?_, hc.2⟩
  rcases Nat.eq_zero_or_pos i with h0 | h0
  · subst h0
    have := hc.2
    simp at this
  · exact h0

theorem siftUp_step (arr : List Entry) (i : Nat)
    (hc : 0 ≤ parent i ∧ (rd arr (parent i).toNat).1 < (rd arr i).1) :
    siftUp arr i
      = siftUp (wr (wr arr ((i - 1) / 2) (rd arr i)) i (rd arr ((i - 1) / 2))) ((i - 1) / 2) := by
  rw [siftUp, dif_pos hc]
  simp only [parent_toNat]

theorem siftUp_stop (arr : List Entry) (i : Nat)
    (hc : ¬ (0 ≤ parent i ∧ (rd arr (parent i).toNat).1 < (rd arr i).1)) :
    siftUp arr i = arr := by
  rw [siftUp, dif_neg hc]

theorem siftUp_length : ∀ (i : Nat) (arr : List Entry), (siftUp arr i).length = arr.length := by
  intro i
  induction i using Nat.strong_induction_on with
  | _ i ih =>
    intro arr
    by_cases hc : 0 ≤ parent i ∧ (rd arr (parent i).toNat).1 < (rd arr i).1
    · rw [siftUp_step arr i hc, ih ((i - 1) / 2) (by have := siftUp_guard_pos arr i hc; omega),
        length_wr, length_wr]
    · rw [siftUp_stop arr i hc]

theorem siftUp_perm (n : Nat) : ∀ (i : Nat) (arr : List Entry), i < n → n ≤ arr.length →
    List.Perm ((siftUp arr i).take n) (arr.take n) := by
  intro i
  induction i using Nat.strong_induction_on with
  | _ i ih =>
    intro arr hi hn
    by_cases hc : 0 ≤ parent i ∧ (rd arr (parent i).toNat).1 < (rd arr i).1
    · have hp := siftUp_guard_pos arr i hc
      rw [siftUp_step arr i hc]
      refine (ih ((i - 1) / 2) (by omega) _ (by omega) (by rw [length_wr, length_wr]; exact hn)).trans
        ?_
      exact take_swap_perm arr n ((i - 1) / 2) i (by omega) hi hn
    · rw [siftUp_stop arr i hc]

theorem siftUp_heapOrdered (n : Nat) : ∀ (i : Nat) (arr : List Entry), i < n → n ≤ arr.length →
    UpInv arr n i → HeapOrdered (siftUp arr i) n := by
  intro i
  induction i using Nat.strong_induction_on with
  | _ i ih =>
    intro arr hi hn hinv
    by_cases hc : 0 ≤ parent i ∧ (rd arr (parent i).toNat).1 < (rd arr i).1
    · have hp := siftUp_guard_pos arr i hc
      rw [siftUp_step arr i hc]
      have hx : (i - 1) / 2 < arr.length := by omega
      have hy : i < arr.length := by omega
      apply ih ((i - 1) / 2) (by omega) _ (by omega) (by rw [length_wr, length_wr]; exact hn)
      constructor
      · intro j hj1 hjn hjp
        rw [rd_swap arr _ _ _ hx hy, rd_swap arr _ _ _ hx hy]
        by_cases hji : j = i
        · subst hji
          have h1 : ¬ (j - 1) / 2 = j := by omega
          simp only [if_true, h1, if_false]
          omega
        · have h0 := hinv.1 j hj1 hjn hji
          simp only [hji, hjp, if_false]
          by_cases hq : (j - 1) / 2 = i
          · have h2 := hinv.2 j hj1 hjn hq hp.1
            simp only [hq, if_true]
            exact h2
          · simp only [hq, if_false]
            by_cases hq2 : (j - 1) / 2 = (i - 1) / 2
            · simp only [hq2, if_true]
              rw [hq2] at h0
              omega
            · simp only [hq2, if_false]
              exact h0
      · intro c hc1 hcn hcp hp1
        rw [rd_swap arr _ _ _ hx hy, rd_swap arr _ _ _ hx hy]
        have h1 : ¬ ((i - 1) / 2 - 1) / 2 = i := by omega
        have h2 : ¬ ((i - 1) / 2 - 1) / 2 = (i - 1) / 2 := by omega
        have h3 := hinv.1 ((i - 1) / 2) hp1 (by omega) (by omega)
        simp only [h1, h2, if_false]
        by_cases hci : c = i
        · simp only [hci, if_true]
          exact h3
        · have h4 : ¬ c = (i - 1) / 2 := by omega
          have h5 := hinv.1 c hc1 hcn hci
          rw [hcp] at h5
          simp only [hci, h4, if_false]
          omega
    · rw [siftUp_stop arr i hc]
      intro j hj1 hjn
      by_cases hji : j = i
      · subst hji
        have h1 := parent_nonneg j
        rw [parent_toNat] at hc
        have h2 : ¬ (rd arr ((j - 1) / 2)).1 < (rd arr j).1 := fun h => hc ⟨h1, h⟩
        omega
      · exact hinv.1 j hj1 hjn hji

/-! ## Sift-down -/

theorem largerChild_spec (arr : List Entry) (n i : Nat) (h : left i < n) :
    (largerChild arr n i = 2 * i + 1 ∨ largerChild arr n i = 2 * i + 2) ∧
    largerChild arr n i < n ∧
    (rd arr (2 * i + 1)).1 ≤ (rd arr (largerChild arr n i)).1 ∧
    (2 * i + 2 < n → (rd arr (2 * i + 2)).1 ≤ (rd arr (largerChild arr n i)).1) := by
  unfold largerChild left right
  unfold left at h
  split
  · rename_i hc
    refine ⟨Or.inr rfl, hc.1, ?_, fun _ => le_refl _⟩
    have := hc.2
    omega
  · rename_i hc
    refine ⟨Or.inl rfl, h, le_refl _, fun h2 => ?_⟩
    by_contra h3
    exact hc ⟨h2, by omega⟩

theorem siftDown_step (arr : List Entry) (n i : Nat) (h : left i < n)
    (hb : ¬ (rd arr i).1 > (rd arr (largerChild arr n i)).1) :
    siftDown arr n i
      = siftDown (wr (wr arr i (rd arr (largerChild arr n i))) (largerChild arr n i) (rd arr i))
          n (largerChild arr n i) := by
  rw [siftDown, dif_pos h]
  simp only [hb, if_false]

theorem siftDown_break (arr : List Entry) (n i : Nat) (h : left i < n)
    (hb : (rd arr i).1 > (rd arr (largerChild arr n i)).1) : siftDown arr n i = arr := by
  rw [siftDown, dif_pos h]
  simp only [hb, if_true]

theorem siftDown_stop (arr : List Entry) (n i : Nat) (h : ¬ left i < n) :
    siftDown arr n i = arr := by
  rw [siftDown, dif_neg h]

theorem siftDown_length (n : Nat) : ∀ (k i : Nat) (arr : List Entry), n - i ≤ k →
    (siftDown arr n i).length = arr.length := by
  intro k
  induction k with
  | zero =>
    intro i arr hk
    rw [siftDown_stop arr n i (by unfold left; omega)]
  | succ k ih =>
    intro i arr hk
    by_cases h : left i < n
    · by_cases hb : (rd arr i).1 > (rd arr (largerChild arr n i)).1
      · rw [siftDown_break arr n i h hb]
      · have hl := largerChild_spec arr n i h
        rw [siftDown_step arr n i h hb, ih _ _ (by omega), length_wr, length_wr]
    · rw [siftDown_stop arr n i h]

theorem siftDown_perm (n : Nat) : ∀ (k i : Nat) (arr : List Entry), n - i ≤ k →
    n ≤ arr.length → List.Perm ((siftDown arr n i).take n) (arr.take n) := by
  intro k
  induction k with
  | zero =>
    intro i arr hk hn
    rw [siftDown_stop arr n i (by unfold left; omega)]
  | succ k ih =>
    intro i arr hk hn
    by_cases h : left i < n
    · by_cases hb : (rd arr i).1 > (rd arr (largerChild arr n i)).1
      · rw [siftDown_break arr n i h hb]
      · have hl := largerChild_spec arr n i h
        rw [siftDown_step arr n i h hb]
        refine (ih _ _ (by omega) (by rw [length_wr, length_wr]; exact hn)).trans ?_
        exact take_swap_perm arr n i _ (by omega) hl.2.1 hn
    · rw [siftDown_stop arr n i h]

theorem siftDown_heapOrdered (n : Nat) : ∀ (k i : Nat) (arr : List Entry), n - i ≤ k →
    n ≤ arr.length → DownInv arr n i → HeapOrdered (siftDown arr n i) n := by
  intro k
  induction k with
  | zero =>
    intro i arr hk hn hinv
    rw [siftDown_stop arr n i (by unfold left; omega)]
    intro c hc1 hcn
    exact hinv.1 c hc1 hcn (by omega)
  | succ k ih =>
    intro i arr hk hn hinv
    by_cases h : left i < n
    · have hl := largerChild_spec arr n i h
      by_cases hb : (rd arr i).1 > (rd arr (largerChild arr n i)).1
      · rw [siftDown_break arr n i h hb]
        intro c hc1 hcn
        by_cases hq : (c - 1) / 2 = i
        · rw [hq]
          have hcc : c = 2 * i + 1 ∨ c = 2 * i + 2 := by omega
          rcases hcc with hcc | hcc
          · rw [hcc]
            omega
          · have := hl.2.2.2 (by omega)
            rw [hcc]
            omega
        · exact hinv.1 c hc1 hcn hq
      · rw [siftDown_step arr n i h hb]
        generalize hjdef : largerChild arr n i = j at hl hb ⊢
        have hij : i < j := by omega
        have hx : i < arr.length := by omega
        have hy : j < arr.length := by omega
        have hpj : (j - 1) / 2 = i := by omega
        apply ih j _ (by omega) (by rw [length_wr, length_wr]; exact hn)
        constructor
        · intro c hc1 hcn hq
          rw [rd_swap arr _ _ _ hx hy, rd_swap arr _ _ _ hx hy]
          by_cases hcj : c = j
          · subst hcj
            have h1 : ¬ i = c := by omega
            simp only [if_true, hpj, h1, if_false]
            omega
          · simp only [hcj, hq, if_false]
            by_cases hci : c = i
            · subst hci
              have h1 : ¬ (c - 1) / 2 = c := by omega
              have h2 := hinv.2 j (by omega) hl.2.1 hpj hc1
              simp only [if_true, h1, if_false]
              exact h2
            · simp only [hci, if_false]
              by_cases hqi : (c - 1) / 2 = i
              · simp only [hqi, if_true]
                have hcc : c = 2 * i + 1 ∨ c = 2 * i + 2 := by omega
                rcases hcc with hcc | hcc
                · rw [hcc]
                  exact hl.2.2.1
                · rw [hcc]
                  exact hl.2.2.2 (by omega)
              · simp only [hqi, if_false]
                exact hinv.1 c hc1 hcn hqi
        · intro c hc1 hcn hq hj1
          rw [rd_swap arr _ _ _ hx hy, rd_swap arr _ _ _ hx hy]
          have h1 : ¬ c = j := by omega
          have h2 : ¬ c = i := by omega
          have h3 : ¬ i = j := by omega
          have h4 := hinv.1 c hc1 hcn (by omega)
          rw [hq] at h4
          simp only [h1, h2, hpj, h3, if_false, if_true]
          exact h4
    · rw [siftDown_stop arr n i h]
      intro c hc1 hcn
      exact hinv.1 c hc1 hcn (by unfold left at h; omega)

/-! ## The copy loop and heap order -/

theorem length_copyLoop (tmp arr : List Entry) : ∀ n, (copyLoop n tmp arr).length = tmp.length := by
  intro n
  induction n with
  | zero => rfl
  | succ n ih => rw [copyLoop, length_wr, ih]

theorem take_wr_same (a : List Entry) (n : Nat) (e : Entry) : (wr a n e).take n = a.take n := by
  unfold wr
  rw [List.set_take, List.set_eq_of_length_le]
  rw [List.length_take]
  omega

theorem take_copyLoop (tmp arr : List Entry) : ∀ n, n ≤ tmp.length → n ≤ arr.length →
    (copyLoop n tmp arr).take n = arr.take n := by
  intro n
  induction n with
  | zero => intro _ _; rfl
  | succ n ih =>
    intro h1 h2
    have hl : n < (wr (copyLoop n tmp arr) n (rd arr n)).length := by
      rw [length_wr, length_copyLoop]
      omega
    rw [copyLoop, take_succ_rd _ n hl, take_wr_same, ih (by omega) (by omega), rd_wr,
      take_succ_rd arr n (by omega), length_copyLoop]
    have h3 : n = n ∧ n < tmp.length := ⟨rfl, by omega⟩
    rw [if_pos h3]

theorem rd_eq_of_take_eq (a b : List Entry) (n j : Nat) (h : a.take n = b.take n) (hj : j < n) :
    rd a j = rd b j := by
  rw [← rd_take a n j hj, ← rd_take b n j hj, h]

theorem heapOrdered_of_take_eq (a b : List Entry) (n : Nat) (h : a.take n = b.take n)
    (hb : HeapOrdered b n) : HeapOrdered a n := by
  intro i h1 h2
  rw [rd_eq_of_take_eq a b n i h h2, rd_eq_of_take_eq a b n _ h (by omega : (i - 1) / 2 < n)]
  exact hb i h1 h2

theorem heapOrdered_root_max (a : List Entry) (n : Nat) (h : HeapOrdered a n) :
    ∀ i, i < n → (rd a i).1 ≤ (rd a 0).1 := by
  intro i
  induction i using Nat.strong_induction_on with
  | _ i ih =>
    intro hi
    rcases Nat.eq_zero_or_pos i with h0 | h0
    · rw [h0]
    · have h1 := h i h0 hi
      have h2 := ih ((i - 1) / 2) (by omega) (by omega)
      omega

theorem mem_take_le_root (a : List Entry) (n : Nat) (h : HeapOrdered a n) (e : Entry)
    (he : e ∈ a.take n) : e.1 ≤ (rd a 0).1 := by
  obtain ⟨i, hi, rfl⟩ := List.getElem_of_mem he
  have hi2 : i < n := by
    rw [List.length_take] at hi
    omega
  have h1 := heapOrdered_root_max a n h i hi2
  rw [← rd_take a n i hi2, rd_eq_getElem _ i hi] at h1
  exact h1

/-! ## `DynArray::insert` keeps the invariant and adds one entry -/

theorem DynArray.grow_spec (h : DynArray) (hi : h.Inv) :
    (h.grow).buf.length = (h.grow).cap ∧ (h.grow).size = h.size ∧ h.size < (h.grow).cap ∧
    (h.grow).cap ≤ 4 * (h.size + 1) ∧ (h.grow).buf.take h.size = h.buf.take h.size := by
  obtain ⟨h1, h2, h3, _⟩ := hi
  by_cases hs : h.size = 0
  · have e : h.grow = { size := h.size, cap := h.cap + 1, arr := some [(0, 0)] } := by
      unfold DynArray.grow
      rw [if_pos hs]
    rw [e, hs]
    refine ⟨?_, rfl, ?_, ?_, rfl⟩
    · show 1 = h.cap + 1
      omega
    · show 0 < h.cap + 1
      omega
    · show h.cap + 1 ≤ 4 * (0 + 1)
      omega
  · by_cases hc : h.size = h.cap
    · have e : h.grow = DynArray.mk h.size (h.cap * 2)
          (some (copyLoop h.size (List.replicate (h.cap * 2) (0, 0)) h.buf)) := by
        unfold DynArray.grow
        rw [if_neg hs, if_pos hc]
      rw [e]
      refine ⟨?_, rfl, ?_, ?_, ?_⟩
      · show (copyLoop h.size (List.replicate (h.cap * 2) (0, 0)) h.buf).length = h.cap * 2
        rw [length_copyLoop, List.length_replicate]
      · show h.size < h.cap * 2
        omega
      · show h.cap * 2 ≤ 4 * (h.size + 1)
        omega
      · show (copyLoop h.size (List.replicate (h.cap * 2) (0, 0)) h.buf).take h.size
          = h.buf.take h.size
        apply take_copyLoop
        · rw [List.length_replicate]
          omega
        · omega
    · have e : h.grow = h := by
        unfold DynArray.grow
        rw [if_neg hs, if_neg hc]
      rw [e]
      exact ⟨h1, rfl, by omega, by omega, rfl⟩

theorem DynArray.insert_size (h : DynArray) (p : Entry) : (h.insert p).size = h.size + 1 := by
  unfold DynArray.insert DynArray.grow
  split
  · rfl
  · split <;> rfl

theorem DynArray.insert_buf (h : DynArray) (p : Entry) :
    (h.insert p).buf = siftUp (wr (h.grow).buf (h.grow).size p) (h.grow).size := rfl

theorem DynArray.insert_cap (h : DynArray) (p : Entry) : (h.insert p).cap = (h.grow).cap := rfl

theorem DynArray.insert_inv (h : DynArray) (p : Entry) (hi : h.Inv) : (h.insert p).Inv := by
  obtain ⟨g1, g2, g3, g4, g5⟩ := h.grow_spec hi
  have hlen : (wr (h.grow).buf h.size p).length = (h.grow).cap := by rw [length_wr, g1]
  unfold DynArray.Inv
  rw [DynArray.insert_buf, DynArray.insert_size, DynArray.insert_cap, g2]
  refine ⟨?_, by omega, g4, ?_⟩
  · rw [siftUp_length, length_wr]
    exact g1
  · apply siftUp_heapOrdered (h.size + 1) h.size _ (by omega) (by omega)
    constructor
    · intro j hj1 hjn hjne
      have hj : j < h.size := by omega
      have e1 : rd (wr (h.grow).buf h.size p) j = rd h.buf j := by
        rw [rd_wr, if_neg (by omega)]
        exact rd_eq_of_take_eq _ _ h.size j g5 hj
      have e2 : rd (wr (h.grow).buf h.size p) ((j - 1) / 2) = rd h.buf ((j - 1) / 2) := by
        rw [rd_wr, if_neg (by omega)]
        exact rd_eq_of_take_eq _ _ h.size _ g5 (by omega)
      rw [e1, e2]
      exact hi.2.2.2 j hj1 hj
    · intro c hc1 hcn hq _
      omega

theorem DynArray.insert_entries (h : DynArray) (p : Entry) (hi : h.Inv) :
    List.Perm (h.insert p).entries (p :: h.entries) := by
  obtain ⟨g1, g2, g3, g4, g5⟩ := h.grow_spec hi
  have hlen : (wr (h.grow).buf h.size p).length = (h.grow).cap := by rw [length_wr, g1]
  unfold DynArray.entries
  rw [DynArray.insert_size, DynArray.insert_buf, g2]
  refine (siftUp_perm (h.size + 1) h.size _ (by omega) (by omega)).trans ?_
  rw [take_succ_rd _ _ (by omega), take_wr_same, rd_wr, if_pos ⟨rfl, by omega⟩, g5]
  exact List.perm_append_singleton _ _

/-! ## `DynArray::deleteMax` keeps the invariant and removes the root -/

theorem DynArray.shrink_spec (n cap : Nat) (a : List Entry) (hl : a.length = cap) (hn : n ≤ cap) :
    (shrink n cap a).size = n ∧ (shrink n cap a).buf.length = (shrink n cap a).cap ∧
    n ≤ (shrink n cap a).cap ∧ (shrink n cap a).cap ≤ 4 * n ∧
    (shrink n cap a).buf.take n = a.take n ∧
    (4 * n ≤ cap → (shrink n cap a).cap = 2 * n) := by
  by_cases hc : 4 * n ≤ cap
  · have e : shrink n cap a
        = DynArray.mk n (n * 2) (some (copyLoop n (List.replicate (n * 2) (0, 0)) a)) := by
      unfold DynArray.shrink
      rw [if_pos hc]
    rw [e]
    refine ⟨rfl, ?_, ?_, ?_, ?_, ?_⟩
    · show (copyLoop n (List.replicate (n * 2) (0, 0)) a).length = n * 2
      rw [length_copyLoop, List.length_replicate]
    · show n ≤ n * 2
      omega
    · show n * 2 ≤ 4 * n
      omega
    · show (copyLoop n (List.replicate (n * 2) (0, 0)) a).take n = a.take n
      apply take_copyLoop
      · rw [List.length_replicate]
        omega
      · omega
    · intro _
      show n * 2 = 2 * n
      omega
  · have e : shrink n cap a = DynArray.mk n cap (some a) := by
      unfold DynArray.shrink
      rw [if_neg hc]
    rw [e]
    refine ⟨rfl, hl, hn, ?_, rfl, fun h => absurd h hc⟩
    show cap ≤ 4 * n
    omega

theorem take_succ_root_perm (a : List Entry) (n : Nat) (hn : n < a.length) :
    List.Perm (a.take (n + 1)) (rd a 0 :: (wr a 0 (rd a n)).take n) := by
  rw [take_succ_rd a n hn]
  cases n with
  | zero => simp
  | succ m =>
    cases a with
    | nil => simp at hn
    | cons x t =>
      have e0 : rd (x :: t) 0 = x := rfl
      rw [e0]
      unfold wr
      simp only [List.set_cons_zero, List.take_succ_cons]
      exact (List.perm_append_singleton _ _).trans (List.Perm.swap _ _ _)

theorem DynArray.deleteMax_spec (h : DynArray) (hi : h.Inv) (hs : h.size ≠ 0) :
    (h.deleteMax.2).Inv ∧ (h.deleteMax.2).size = h.size - 1 ∧
    List.Perm h.entries (h.deleteMax.1 :: (h.deleteMax.2).entries) ∧
    (∀ e ∈ h.entries, e.1 ≤ h.deleteMax.1.1) ∧
    (4 * (h.size - 1) ≤ h.cap → (h.deleteMax.2).cap = 2 * (h.size - 1)) := by
  obtain ⟨h1, h2, h3, h4⟩ := hi
  have hl1 : (wr h.buf 0 (rd h.buf (h.size - 1))).length = h.cap := by rw [length_wr, h1]
  have hl2 : (siftDown (wr h.buf 0 (rd h.buf (h.size - 1))) (h.size - 1) 0).length = h.cap := by
    rw [siftDown_length (h.size - 1) (h.size - 1) 0 _ (by omega), hl1]
  obtain ⟨s1, s2, s3, s4, s5, s6⟩ := DynArray.shrink_spec (h.size - 1) h.cap _ hl2 (by omega)
  have hd : DownInv (wr h.buf 0 (rd h.buf (h.size - 1))) (h.size - 1) 0 := by
    constructor
    · intro j hj1 hjn hq
      rw [rd_wr, rd_wr, if_neg (by omega), if_neg (by omega)]
      exact h4 j hj1 (by omega)
    · intro c _ _ _ h0
      omega
  have hh := siftDown_heapOrdered (h.size - 1) (h.size - 1) 0 _ (by omega) (by omega) hd
  have hp := siftDown_perm (h.size - 1) (h.size - 1) 0
    (wr h.buf 0 (rd h.buf (h.size - 1))) (by omega) (by omega)
  have e1 : h.deleteMax.1 = rd h.buf 0 := rfl
  have e2 : h.deleteMax.2
      = shrink (h.size - 1) h.cap (siftDown (wr h.buf 0 (rd h.buf (h.size - 1))) (h.size - 1) 0) :=
    rfl
  rw [e1, e2]
  refine ⟨⟨s2, ?_, ?_, ?_⟩, s1, ?_, ?_, s6⟩
  · rw [s1]
    exact s3
  · rw [s1]
    exact s4
  · rw [s1]
    exact heapOrdered_of_take_eq _ _ _ s5 hh
  · unfold DynArray.entries
    rw [s1, s5]
    have h5 : h.size = (h.size - 1) + 1 := by omega
    have h6 := take_succ_root_perm h.buf (h.size - 1) (by omega)
    rw [← h5] at h6
    exact h6.trans (hp.symm.cons _)
  · intro e he
    exact mem_take_le_root h.buf h.size h4 e he

/-! ## Runs of heap commands -/

theorem DynArray.inv_empty : DynArray.empty.Inv := by
  refine ⟨rfl, le_refl _, le_refl _, ?_⟩
  intro i _ h
  exact absurd h (Nat.not_lt_zero i)

theorem heapDeleteMax_pos (h : DynArray) (hs : h.size ≠ 0) :
    heapDeleteMax h = (some h.deleteMax.1, h.deleteMax.2) := by
  unfold heapDeleteMax
  rw [if_pos hs]

theorem heapDeleteMax_zero (h : DynArray) (hs : h.size = 0) : heapDeleteMax h = (none, h) := by
  unfold heapDeleteMax
  rw [if_neg (not_not.mpr hs)]

theorem heapStep_inv (h : DynArray) (op : HeapOp) (hi : h.Inv) : (heapStep h op).Inv := by
  cases op with
  | insert p1 => exact h.insert_inv p1 hi
  | deleteMax =>
    by_cases hs : h.size = 0
    · show (heapDeleteMax h).2.Inv
      rw [heapDeleteMax_zero h hs]
      exact hi
    · show (heapDeleteMax h).2.Inv
      rw [heapDeleteMax_pos h hs]
      exact (h.deleteMax_spec hi hs).1
  | peek => exact hi
  | reset => exact DynArray.inv_empty

theorem heapRun_inv_from : ∀ (ops : List HeapOp) (h : DynArray), h.Inv →
    (ops.foldl heapStep h).Inv := by
  intro ops
  induction ops with
  | nil => intro h hi; exact hi
  | cons op ops ih =>
    intro h hi
    exact ih _ (heapStep_inv h op hi)

theorem heapRun_inv (ops : List HeapOp) : (heapRun ops).Inv :=
  heapRun_inv_from ops _ DynArray.inv_empty

theorem heapInserts_spec : ∀ (ps : List Entry) (h : DynArray), h.Inv →
    (ps.foldl heapInsert h).Inv ∧ (ps.foldl heapInsert h).size = h.size + ps.length ∧
    List.Perm (ps.foldl heapInsert h).entries (ps ++ h.entries) := by
  intro ps
  induction ps with
  | nil => intro h hi; exact ⟨hi, rfl, List.Perm.refl _⟩
  | cons p ps ih =>
    intro h hi
    obtain ⟨i1, i2, i3⟩ := ih (h.insert p) (h.insert_inv p hi)
    refine ⟨i1, ?_, ?_⟩
    · show (ps.foldl heapInsert (h.insert p)).size = _
      rw [i2, DynArray.insert_size, List.length_cons]
      omega
    · show List.Perm (ps.foldl heapInsert (h.insert p)).entries _
      refine i3.trans ?_
      refine ((h.insert_entries p hi).append_left ps).trans ?_
      simp only [List.cons_append]
      exact List.perm_middle

theorem heapDeletes_spec : ∀ (n : Nat) (h : DynArray), h.Inv →
    (heapDeletes n h).2.Inv ∧ (heapDeletes n h).2.size = h.size - n ∧
    (heapDeletes n h).1.length = min n h.size ∧
    List.Perm ((heapDeletes n h).1 ++ (heapDeletes n h).2.entries) h.entries ∧
    List.Sorted (fun a b : Entry => a.1 ≥ b.1) (heapDeletes n h).1 := by
  intro n
  induction n with
  | zero =>
    intro h hi
    exact ⟨hi, rfl, by simp [heapDeletes], List.Perm.refl _, List.sorted_nil⟩
  | succ n ih =>
    intro h hi
    by_cases hs : h.size = 0
    · have e : heapDeletes (n + 1) h = heapDeletes n h := by
        rw [heapDeletes, heapDeleteMax_zero h hs]
        rfl
      rw [e]
      obtain ⟨i1, i2, i3, i4, i5⟩ := ih h hi
      refine ⟨i1, by omega, ?_, i4, i5⟩
      rw [i3, hs]
      simp
    · obtain ⟨d1, d2, d3, d4, _⟩ := h.deleteMax_spec hi hs
      obtain ⟨i1, i2, i3, i4, i5⟩ := ih _ d1
      have e1 : (heapDeletes (n + 1) h).1 = h.deleteMax.1 :: (heapDeletes n h.deleteMax.2).1 := by
        rw [heapDeletes, heapDeleteMax_pos h hs]
        rfl
      have e2 : (heapDeletes (n + 1) h).2 = (heapDeletes n h.deleteMax.2).2 := by
        rw [heapDeletes, heapDeleteMax_pos h hs]
      rw [e1, e2]
      refine ⟨i1, by omega, ?_, ?_, ?_⟩
      · rw [List.length_cons, i3, d2]
        omega
      · simp only [List.cons_append]
        exact (i4.cons _).trans d3.symm
      · rw [List.sorted_cons]
        refine ⟨fun b hb => ?_, i5⟩
        have hb1 : b ∈ (h.deleteMax.2).entries :=
          i4.subset (List.mem_append_left _ hb)
        have hb2 : b ∈ h.entries := d3.symm.subset (List.mem_cons_of_mem _ hb1)
        exact d4 b hb2

theorem entries_eq_nil_of_size_zero (h : DynArray) (hs : h.size = 0) : h.entries = [] := by
  unfold DynArray.entries
  rw [hs]
  rfl

/-! ## The sorted linked list -/

theorem listInsert_eq_insertScan (pq : List Entry) (p1 : Entry) :
    listInsert pq p1 = insertScan p1 pq := by
  cases pq with
  | nil => rfl
  | cons hd next =>
    show insert hd next p1 = insertScan p1 (hd :: next)
    unfold insert
    rw [insertScan]
    by_cases h : p1.1 ≤ hd.1
    · rw [if_pos h, if_neg (by omega)]
    · rw [if_neg h, if_pos (by omega)]

theorem insertScan_perm (p1 : Entry) : ∀ l : List Entry, List.Perm (insertScan p1 l) (p1 :: l) := by
  intro l
  induction l with
  | nil => exact List.Perm.refl _
  | cons n rest ih =>
    rw [insertScan]
    split
    · exact (ih.cons n).trans (List.Perm.swap _ _ _)
    · exact List.Perm.refl _

theorem insertScan_sorted (p1 : Entry) : ∀ l : List Entry,
    List.Sorted (fun a b : Entry => a.1 ≥ b.1) l →
    List.Sorted (fun a b : Entry => a.1 ≥ b.1) (insertScan p1 l) := by
  intro l
  induction l with
  | nil =>
    intro _
    exact List.sorted_singleton _
  | cons n rest ih =>
    intro hs
    rw [List.sorted_cons] at hs
    rw [insertScan]
    split
    · rename_i hle
      rw [List.sorted_cons]
      refine ⟨fun b hb => ?_, ih hs.2⟩
      rcases List.mem_cons.mp ((insertScan_perm p1 rest).subset hb) with hb1 | hb1
      · rw [hb1]
        exact hle
      · exact hs.1 b hb1
    · rename_i hgt
      rw [List.sorted_cons]
      refine ⟨fun b hb => ?_, List.sorted_cons.mpr hs⟩
      rcases List.mem_cons.mp hb with hb1 | hb1
      · rw [hb1]
        show p1.1 ≥ n.1
        omega
      · have := hs.1 b hb1
        show p1.1 ≥ b.1
        omega

theorem insertScan_filter (p1 : Entry) (q : Int) : ∀ l : List Entry,
    List.Sorted (fun a b : Entry => a.1 ≥ b.1) l →
    (insertScan p1 l).filter (fun e => decide (e.1 = q))
      = (l ++ [p1]).filter (fun e => decide (e.1 = q)) := by
  intro l
  induction l with
  | nil => intro _; rfl
  | cons n rest ih =>
    intro hs
    rw [List.sorted_cons] at hs
    rw [insertScan]
    split
    · rw [List.cons_append, List.filter_cons, List.filter_cons, ih hs.2]
    · rename_i hgt
      by_cases hq : p1.1 = q
      · have hnil : (n :: rest).filter (fun e => decide (e.1 = q)) = [] := by
          rw [List.filter_eq_nil_iff]
          intro a ha
          have h1 : a.1 ≤ n.1 := by
            rcases List.mem_cons.mp ha with h | h
            · rw [h]
            · exact hs.1 a h
          simp only [decide_eq_true_eq]
          omega
        rw [List.filter_append, hnil, List.filter_cons, hnil]
        simp [hq]
      · rw [List.filter_append, List.filter_cons]
        simp [hq]

theorem listInserts_spec : ∀ (ps pq : List Entry),
    List.Sorted (fun a b : Entry => a.1 ≥ b.1) pq →
    IsStableSortDesc (pq ++ ps) (ps.foldl listInsert pq) := by
  intro ps
  induction ps with
  | nil =>
    intro pq hs
    rw [List.append_nil]
    exact ⟨List.Perm.refl _, hs, fun _ => rfl⟩
  | cons p ps ih =>
    intro pq hs
    have h1 := ih (listInsert pq p) (by
      rw [listInsert_eq_insertScan]
      exact insertScan_sorted p pq hs)
    obtain ⟨a1, a2, a3⟩ := h1
    have e : pq ++ p :: ps = (pq ++ [p]) ++ ps := by simp
    refine ⟨?_, a2, ?_⟩
    · show List.Perm (ps.foldl listInsert (listInsert pq p)) _
      refine a1.trans ?_
      rw [e, listInsert_eq_insertScan]
      exact ((insertScan_perm p pq).trans (List.perm_append_singleton p pq).symm).append_right ps
    · intro q
      show (ps.foldl listInsert (listInsert pq p)).filter _ = _
      rw [a3 q, e, List.filter_append, List.filter_append (pq ++ [p]), listInsert_eq_insertScan,
        insertScan_filter p q pq hs]

theorem orderedInsert_filter (a : Entry) (q : Int) : ∀ l : List Entry,
    (List.orderedInsert (fun a b : Entry => a.1 ≥ b.1) a l).filter (fun e => decide (e.1 = q))
      = (a :: l).filter (fun e => decide (e.1 = q)) := by
  intro l
  induction l with
  | nil => rfl
  | cons b l ih =>
    rw [List.orderedInsert]
    split
    · rfl
    · rename_i hlt
      rw [List.filter_cons, ih]
      by_cases hq : a.1 = q
      · have hb : ¬ b.1 = q := by omega
        simp [hq, hb]
      · simp [hq, List.filter_cons]

theorem stableSortDesc_spec (ps : List Entry) : IsStableSortDesc ps (stableSortDesc ps) := by
  haveI : IsTotal Entry (fun a b : Entry => a.1 ≥ b.1) := ⟨fun a b => by
    show a.1 ≥ b.1 ∨ b.1 ≥ a.1
    omega⟩
  haveI : IsTrans Entry (fun a b : Entry => a.1 ≥ b.1) := ⟨fun a b c h1 h2 => by
    show a.1 ≥ c.1
    have h3 : a.1 ≥ b.1 := h1
    have h4 : b.1 ≥ c.1 := h2
    omega⟩
  refine ⟨List.perm_insertionSort _ ps, List.sorted_insertionSort _ ps, fun q => ?_⟩
  unfold stableSortDesc
  induction ps with
  | nil => rfl
  | cons a l ih =>
    rw [List.insertionSort, orderedInsert_filter, List.filter_cons, ih, List.filter_cons]

theorem stableSort_unique : ∀ l1 l2 : List Entry, List.Perm l1 l2 →
    List.Sorted (fun a b : Entry => a.1 ≥ b.1) l1 →
    List.Sorted (fun a b : Entry => a.1 ≥ b.1) l2 →
    (∀ q : Int, l1.filter (fun e => decide (e.1 = q)) = l2.filter (fun e => decide (e.1 = q))) →
    l1 = l2 := by
  intro l1
  induction l1 with
  | nil =>
    intro l2 hp _ _ _
    exact hp.nil_eq
  | cons a t1 ih =>
    intro l2 hp h1 h2 hf
    cases l2 with
    | nil => exact absurd hp.length_eq (by simp)
    | cons b t2 =>
      rw [List.sorted_cons] at h1 h2
      have hab : a.1 ≤ b.1 := by
        rcases List.mem_cons.mp (hp.subset (List.mem_cons_self a t1)) with h | h
        · rw [h]
        · exact h2.1 a h
      have hba : b.1 ≤ a.1 := by
        rcases List.mem_cons.mp (hp.symm.subset (List.mem_cons_self b t2)) with h | h
        · rw [h]
        · exact h1.1 b h
      have heq : a = b := by
        have h3 := hf a.1
        have hb : b.1 = a.1 := by omega
        simp only [List.filter_cons, hb, decide_True, if_true] at h3
        exact (List.cons.inj h3).1
      subst heq
      congr 1
      apply ih t2 hp.cons_inv h1.2 h2.2
      intro q
      have h3 := hf q
      rw [List.filter_cons, List.filter_cons] at h3
      split at h3
      · exact (List.cons.inj h3).2
      · exact h3

theorem isStableSortDesc_eq (ps out : List Entry) (h : IsStableSortDesc ps out) :
    out = stableSortDesc ps := by
  obtain ⟨a1, a2, a3⟩ := h
  obtain ⟨b1, b2, b3⟩ := stableSortDesc_spec ps
  exact stableSort_unique _ _ (a1.trans b1.symm) a2 b2 (fun q => (a3 q).trans (b3 q).symm)

theorem listDeletes_eq : ∀ (n : Nat) (pq : List Entry),
    listDeletes n pq = (pq.take n, pq.drop n) := by
  intro n
  induction n with
  | zero => intro pq; rfl
  | succ n ih =>
    intro pq
    cases pq with
    | nil =>
      rw [listDeletes, ih]
      simp [listDeleteMax]
    | cons hd next =>
      rw [listDeletes, ih]
      simp [listDeleteMax, deleteMax]

theorem listDrain_eq (pq : List Entry) : listDrain pq = pq := by
  unfold listDrain
  rw [listDeletes_eq]
  exact List.take_length pq

/-! ## Capacity of the heap buffer -/

theorem DynArray.grow_cap (h : DynArray) :
    (h.grow).cap = if h.size = 0 then h.cap + 1 else if h.size = h.cap then h.cap * 2 else h.cap := by
  unfold DynArray.grow
  split
  · rfl
  · split <;> rfl

theorem DynArray.insert_cap_pow (h : DynArray) (p : Entry) (hi : h.Inv)
    (hp : h.size = 0 ∨ ∃ k : Nat, h.cap = 2 ^ k) : ∃ k : Nat, (h.insert p).cap = 2 ^ k := by
  rw [DynArray.insert_cap, DynArray.grow_cap]
  by_cases hs : h.size = 0
  · rw [if_pos hs]
    have h3 := hi.2.2.1
    refine ⟨0, ?_⟩
    rw [pow_zero]
    omega
  · rw [if_neg hs]
    rcases hp with hp | ⟨k, hk⟩
    · exact absurd hp hs
    · by_cases hc : h.size = h.cap
      · rw [if_pos hc]
        exact ⟨k + 1, by rw [hk, pow_succ]⟩
      · rw [if_neg hc]
        exact ⟨k, hk⟩

theorem heapInserts_cap_pow : ∀ (ps : List Entry) (h : DynArray), h.Inv →
    (h.size = 0 ∨ ∃ k : Nat, h.cap = 2 ^ k) →
    ((ps.foldl heapInsert h).size = 0 ∨ ∃ k : Nat, (ps.foldl heapInsert h).cap = 2 ^ k) := by
  intro ps
  induction ps with
  | nil => intro h _ hp; exact hp
  | cons p ps ih =>
    intro h hi hp
    exact ih (h.insert p) (h.insert_inv p hi) (Or.inr (h.insert_cap_pow p hi hp))

/-! ## The claims about the heap and the list -/

/-- C1: for every sequence of inserts into an empty heap, draining it with `deleteMax` until it is
empty (one call per stored entry, the size dropping by one each call) prints priorities in
non-increasing order, each one at least the next; inserting priorities 5, 9, 3 with stamps
1, 2, 3 and deleting three times prints (9,2), (5,1), (3,3). -/
theorem C1_heap_drain_nonincreasing (ps : List Entry) :
    List.Sorted (fun a b : Int => a ≥ b)
      ((heapDrain (ps.foldl heapInsert DynArray.empty)).map Prod.fst) ∧
    List.Chain' (fun a b : Int => a ≥ b)
      ((heapDrain (ps.foldl heapInsert DynArray.empty)).map Prod.fst) ∧
    (∀ k, (heapDeletes k (ps.foldl heapInsert DynArray.empty)).2.size = ps.length - k) ∧
    (heapDrain (ps.foldl heapInsert DynArray.empty)).length = ps.length ∧
    heapDrain ([((5 : Int), (1 : Int)), (9, 2), (3, 3)].foldl heapInsert DynArray.empty)
      = [(9, 2), (5, 1), (3, 3)] := by
  obtain ⟨i1, i2, _⟩ := heapInserts_spec ps DynArray.empty DynArray.inv_empty
  have hsz : (ps.foldl heapInsert DynArray.empty).size = ps.length := by
    rw [i2]
    exact Nat.zero_add _
  have hsorted : List.Sorted (fun a b : Int => a ≥ b)
      ((heapDrain (ps.foldl heapInsert DynArray.empty)).map Prod.fst) := by
    unfold heapDrain
    exact List.Pairwise.map Prod.fst (fun _ _ h => h) (heapDeletes_spec _ _ i1).2.2.2.2
  refine ⟨hsorted, List.Pairwise.chain' hsorted, ?_, ?_, ?_⟩
  · intro k
    rw [(heapDeletes_spec k _ i1).2.1, hsz]
  · unfold heapDrain
    rw [(heapDeletes_spec _ _ i1).2.2.1, hsz]
    exact Nat.min_self _
  · simp only [heapDrain, List.foldl, heapInsert, heapDeletes, heapDeleteMax,
      DynArray.insert, DynArray.deleteMax, siftUp_eval, siftDown_eval]
    decide

/-- C2: for every sequence of inserts into an empty sorted list, draining it with `deleteMax`
prints the inserted entries stably sorted by descending priority (the same entries, priorities
non-increasing, equal priorities in insertion order; equally, the stable insertion sort of the
insertion sequence on descending priority) and leaves the list empty; priorities
5, 3, 5 with payloads 1, 2, 3 drain as (5,1), (5,3), (3,2). -/
theorem C2_list_drain_stable_sort (ps : List Entry) :
    IsStableSortDesc ps (listDrain (ps.foldl listInsert [])) ∧
    listDrain (ps.foldl listInsert []) = stableSortDesc ps ∧
    (listDeletes (ps.foldl listInsert []).length (ps.foldl listInsert [])).2 = [] ∧
    listDrain ([((5 : Int), (1 : Int)), (3, 2), (5, 3)].foldl listInsert [])
      = [(5, 1), (5, 3), (3, 2)] := by
  have h := listInserts_spec ps [] List.sorted_nil
  rw [List.nil_append, ← listDrain_eq (ps.foldl listInsert [])] at h
  refine ⟨h, isStableSortDesc_eq ps _ h, ?_, by decide⟩
  rw [listDeletes_eq]
  exact List.drop_length _

/-- C3: for every sequence of inserts applied to an empty sorted list and to an empty heap, the
priorities printed by draining the list equal the priorities printed by draining the heap. -/
theorem C3_list_heap_same_priorities (ps : List Entry) :
    (listDrain (ps.foldl listInsert [])).map Prod.fst
      = (heapDrain (ps.foldl heapInsert DynArray.empty)).map Prod.fst := by
  obtain ⟨i1, i2, i3⟩ := heapInserts_spec ps DynArray.empty DynArray.inv_empty
  obtain ⟨d1, d2, _, d4, d5⟩ := heapDeletes_spec (ps.foldl heapInsert DynArray.empty).size _ i1
  have l1 := listInserts_spec ps [] List.sorted_nil
  rw [List.nil_append] at l1
  rw [listDrain_eq]
  have hz : ((heapDeletes (ps.foldl heapInsert DynArray.empty).size
      (ps.foldl heapInsert DynArray.empty)).2).entries = [] :=
    entries_eq_nil_of_size_zero _ (by rw [d2]; exact Nat.sub_self _)
  rw [hz, List.append_nil] at d4
  have e0 : DynArray.empty.entries = [] := rfl
  rw [e0, List.append_nil] at i3
  have hperm : List.Perm (ps.foldl listInsert [])
      (heapDrain (ps.foldl heapInsert DynArray.empty)) :=
    l1.1.trans (i3.symm.trans d4.symm)
  have s1 : List.Sorted (fun a b : Int => a ≥ b) ((ps.foldl listInsert []).map Prod.fst) :=
    List.Pairwise.map Prod.fst (fun _ _ h => h) l1.2.1
  have s2 : List.Sorted (fun a b : Int => a ≥ b)
      ((heapDrain (ps.foldl heapInsert DynArray.empty)).map Prod.fst) :=
    List.Pairwise.map Prod.fst (fun _ _ h => h) d5
  exact List.eq_of_perm_of_sorted (hperm.map Prod.fst) s1 s2

/-- C4: in every heap state reached from the empty heap by inserts, guarded deleteMax, peeks and
resets, each slot `i` with `1 ≤ i < size` has priority at most that of slot `(i - 1) / 2`, and the
root slot has the largest priority of all stored entries. -/
theorem C4_heap_order_invariant (ops : List HeapOp) :
    (∀ i, 1 ≤ i → i < (heapRun ops).size →
      (rd (heapRun ops).buf ((i - 1) / 2)).1 ≥ (rd (heapRun ops).buf i).1) ∧
    (∀ i, i < (heapRun ops).size → (rd (heapRun ops).buf 0).1 ≥ (rd (heapRun ops).buf i).1) ∧
    (∀ e ∈ (heapRun ops).entries, (rd (heapRun ops).buf 0).1 ≥ e.1) :=
  ⟨(heapRun_inv ops).2.2.2, heapOrdered_root_max _ _ (heapRun_inv ops).2.2.2,
    fun e he => mem_take_le_root _ _ (heapRun_inv ops).2.2.2 e he⟩

/-- C5: after any `n` inserts into an empty heap, each of the next `n` commands `d 2` prints an
entry, the `n` printed entries are a permutation of the inserted ones, the heap then has size 0,
and a further deleteMax or peek prints nothing and changes nothing. -/
theorem C5_heap_round_trip (ps : List Entry) :
    (∀ k, k < ps.length →
      (heapDeleteMax (heapDeletes k (ps.foldl heapInsert DynArray.empty)).2).1.isSome = true) ∧
    (heapDeletes ps.length (ps.foldl heapInsert DynArray.empty)).1.length = ps.length ∧
    List.Perm (heapDeletes ps.length (ps.foldl heapInsert DynArray.empty)).1 ps ∧
    (heapDeletes ps.length (ps.foldl heapInsert DynArray.empty)).2.size = 0 ∧
    heapDeleteMax (heapDeletes ps.length (ps.foldl heapInsert DynArray.empty)).2
      = (none, (heapDeletes ps.length (ps.foldl heapInsert DynArray.empty)).2) ∧
    heapPeek (heapDeletes ps.length (ps.foldl heapInsert DynArray.empty)).2 = none := by
  obtain ⟨i1, i2, i3⟩ := heapInserts_spec ps DynArray.empty DynArray.inv_empty
  have hsz : (ps.foldl heapInsert DynArray.empty).size = ps.length := by
    rw [i2]
    exact Nat.zero_add _
  obtain ⟨d1, d2, d3, d4, _⟩ := heapDeletes_spec ps.length _ i1
  have hz : (heapDeletes ps.length (ps.foldl heapInsert DynArray.empty)).2.size = 0 := by
    rw [d2, hsz]
    exact Nat.sub_self _
  refine ⟨?_, ?_, ?_, hz, heapDeleteMax_zero _ hz, ?_⟩
  · intro k hk
    have h1 := (heapDeletes_spec k _ i1).2.1
    rw [heapDeleteMax_pos _ (by rw [h1, hsz]; omega)]
    rfl
  · rw [d3, hsz]
    exact Nat.min_self _
  · rw [entries_eq_nil_of_size_zero _ hz, List.append_nil] at d4
    have e0 : DynArray.empty.entries = [] := rfl
    rw [e0, List.append_nil] at i3
    exact d4.trans i3
  · unfold heapPeek
    rw [if_neg (not_not.mpr hz)]

/-- C7: after `n ≥ 1` inserts into an empty heap, with no deletion, the capacity is a power of two
and is at least `n`. -/
theorem C7_capacity_power_of_two (ps : List Entry) (hn : 1 ≤ ps.length) :
    (∃ k : Nat, (ps.foldl heapInsert DynArray.empty).cap = 2 ^ k) ∧
    ps.length ≤ (ps.foldl heapInsert DynArray.empty).cap := by
  obtain ⟨i1, i2, _⟩ := heapInserts_spec ps DynArray.empty DynArray.inv_empty
  have hsz : (ps.foldl heapInsert DynArray.empty).size = ps.length := by
    rw [i2]
    exact Nat.zero_add _
  constructor
  · rcases heapInserts_cap_pow ps DynArray.empty DynArray.inv_empty (Or.inl rfl) with h | h
    · omega
    · exact h
  · have := i1.2.1
    omega

/-- Witness for C7: three inserts. -/
theorem C7_capacity_power_of_two_witness :
    1 ≤ [((5 : Int), (1 : Int)), (9, 2), (3, 3)].length ∧
    ((∃ k : Nat, ([((5 : Int), (1 : Int)), (9, 2), (3, 3)].foldl heapInsert DynArray.empty).cap
        = 2 ^ k) ∧
      [((5 : Int), (1 : Int)), (9, 2), (3, 3)].length
        ≤ ([((5 : Int), (1 : Int)), (9, 2), (3, 3)].foldl heapInsert DynArray.empty).cap) :=
  ⟨by decide, C7_capacity_power_of_two [(5, 1), (9, 2), (3, 3)] (by decide)⟩

/-- C8: in every heap state reached from the empty heap by inserts, guarded deleteMax, peeks and
resets, `size ≤ cap` and `cap ≤ 4 * size`; and a `deleteMax` on a non-empty such state whose
shrink step triggers (new size at most a quarter of the capacity) leaves `cap = 2 * size`. -/
theorem C8_capacity_bounds (ops : List HeapOp) :
    (heapRun ops).size ≤ (heapRun ops).cap ∧ (heapRun ops).cap ≤ 4 * (heapRun ops).size ∧
    ((heapRun ops).size ≠ 0 → 4 * ((heapRun ops).size - 1) ≤ (heapRun ops).cap →
      ((heapRun ops).deleteMax.2).cap = 2 * ((heapRun ops).deleteMax.2).size) := by
  have hi := heapRun_inv ops
  refine ⟨hi.2.1, hi.2.2.1, fun hs hq => ?_⟩
  obtain ⟨_, d2, _, _, d5⟩ := (heapRun ops).deleteMax_spec hi hs
  rw [d2]
  exact d5 hq

/-! ## The vector of queues -/

theorem storedFrom_append : ∀ (a b : Buckets) (k : Nat),
    storedFrom k (a ++ b) = storedFrom k a ++ storedFrom (k + a.length) b := by
  intro a
  induction a with
  | nil => intro b k; simp [storedFrom]
  | cons x a ih =>
    intro b k
    rw [List.cons_append, storedFrom, storedFrom, ih, List.append_assoc, List.length_cons]
    have e : k + 1 + a.length = k + (a.length + 1) := by omega
    rw [e]

theorem storedFrom_replicate_none : ∀ (m k : Nat), storedFrom k (List.replicate m none) = [] := by
  intro m
  induction m with
  | zero => intro k; rfl
  | succ m ih =>
    intro k
    rw [List.replicate_succ, storedFrom, ih]
    rfl

theorem storedFrom_singleton (k : Nat) (b : Option (List Int)) :
    storedFrom k [b] = (b.getD []).map (fun x => ((k : Int), x)) := by
  rw [storedFrom, storedFrom, List.append_nil]

theorem mem_storedFrom_bounds : ∀ (v : Buckets) (k : Nat) (e : Entry), e ∈ storedFrom k v →
    (k : Int) ≤ e.1 ∧ e.1 < (k : Int) + v.length := by
  intro v
  induction v with
  | nil => intro k e h; simp [storedFrom] at h
  | cons b v ih =>
    intro k e h
    rw [storedFrom, List.mem_append] at h
    rw [List.length_cons]
    rcases h with h | h
    · obtain ⟨x, _, rfl⟩ := List.mem_map.mp h
      simp only
      omega
    · have := ih (k + 1) e h
      push_cast at this ⊢
      omega

theorem trimNull_replicate_none : ∀ m : Nat, trimNull (List.replicate m none) = [] := by
  intro m
  induction m with
  | zero => rfl
  | succ m ih =>
    unfold trimNull at ih ⊢
    rw [List.replicate_succ', List.rdropWhile_concat_pos _ _ _ rfl, ih]

theorem trimNull_concat_some (init : Buckets) (q : List Int) :
    trimNull (init ++ [some q]) = init ++ [some q] := by
  unfold trimNull
  exact List.rdropWhile_concat_neg _ _ _ (by simp)

theorem trimNull_concat_none (init : Buckets) : trimNull (init ++ [none]) = trimNull init := by
  unfold trimNull
  exact List.rdropWhile_concat_pos _ _ _ rfl

theorem trimNull_spec : ∀ v : Buckets,
    (trimNull v = [] ∨ ∃ (init : Buckets) (q : List Int), trimNull v = init ++ [some q]) ∧
    (∀ k, storedFrom k (trimNull v) = storedFrom k v) ∧ (∀ b, b ∈ trimNull v → b ∈ v) := by
  intro v
  induction v using List.reverseRecOn with
  | nil => exact ⟨Or.inl rfl, fun _ => rfl, fun _ h => h⟩
  | append_singleton l b ih =>
    cases b with
    | none =>
      rw [trimNull_concat_none]
      refine ⟨ih.1, fun k => ?_, fun b hb => List.mem_append_left _ (ih.2.2 b hb)⟩
      rw [ih.2.1 k, storedFrom_append, storedFrom_singleton]
      simp
    | some q =>
      rw [trimNull_concat_some]
      exact ⟨Or.inr ⟨l, q, rfl⟩, fun _ => rfl, fun _ h => h⟩

theorem bucketDeleteMax_short (v : Buckets) (h : v.length ≤ 1) : bucketDeleteMax v = (none, v) := by
  unfold bucketDeleteMax
  rw [if_pos (by omega)]

theorem bucketDeleteMax_concat (init : Buckets) (y : Int) (q : List Int) (h : 1 ≤ init.length) :
    bucketDeleteMax (init ++ [some (y :: q)])
      = (some ((init.length : Int), y),
          if q = [] then trimNull init else init ++ [some q]) := by
  have hl : (init ++ [some (y :: q)]).length = init.length + 1 := by simp
  have hg : (init ++ [some (y :: q)]).getD init.length none = some (y :: q) := by
    rw [List.getD_append_right _ _ _ _ (le_refl _)]
    simp
  unfold bucketDeleteMax
  rw [hl, if_neg (by push_cast; omega)]
  simp only [Nat.add_sub_cancel, hg, Option.getD_some, List.headD_cons, List.tail_cons,
    List.dropLast_concat, Nat.cast_add, Nat.cast_one, add_sub_cancel_right]
  cases q with
  | nil => simp
  | cons z q =>
    simp only [List.isEmpty_cons, Bool.false_eq_true, if_false]
    rw [List.set_append_right _ _ (le_refl _)]
    simp

theorem bucketDeleteMax_long (v : Buckets) (hi : BInv v) (h : 2 ≤ v.length) :
    ∃ (e : Entry) (w : Buckets), bucketDeleteMax v = (some e, w) ∧ BInv w ∧
      List.Perm (stored v) (e :: stored w) ∧ e.1 = (v.length : Int) - 1 := by
  obtain ⟨ha, ht⟩ := hi
  rcases ht with ht | ⟨init, q, ht⟩
  · rw [ht] at h
    simp at h
  · subst ht
    have hq : q ≠ [] := ha q (by simp)
    have hlen : 1 ≤ init.length := by
      simp only [List.length_append, List.length_singleton] at h
      omega
    obtain ⟨y, q, rfl⟩ := List.exists_cons_of_ne_nil hq
    refine ⟨((init.length : Int), y), _, bucketDeleteMax_concat init y q hlen, ?_, ?_, ?_⟩
    · by_cases hq2 : q = []
      · rw [if_pos hq2]
        obtain ⟨t1, _, t3⟩ := trimNull_spec init
        exact ⟨fun r hr => ha r (List.mem_append_left _ (t3 _ hr)), t1⟩
      · rw [if_neg hq2]
        refine ⟨fun r hr => ?_, Or.inr ⟨init, q, rfl⟩⟩
        rcases List.mem_append.mp hr with hr | hr
        · exact ha r (List.mem_append_left _ hr)
        · simp only [List.mem_singleton, Option.some.injEq] at hr
          rw [hr]
          exact hq2
    · unfold stored
      by_cases hq2 : q = []
      · rw [if_pos hq2, (trimNull_spec init).2.1 0, storedFrom_append, storedFrom_singleton, hq2]
        simp only [Option.getD_some, List.map_cons, List.map_nil, Nat.zero_add]
        exact List.perm_append_singleton _ _
      · rw [if_neg hq2, storedFrom_append, storedFrom_append, storedFrom_singleton,
          storedFrom_singleton]
        simp only [Option.getD_some, List.map_cons, Nat.zero_add]
        exact List.perm_middle
    · simp

theorem storedFrom_set_push (x : Int) : ∀ (v : Buckets) (j i : Nat), i < v.length →
    List.Perm (storedFrom j (v.set i (some ((v.getD i none).getD [] ++ [x]))))
      ((((j + i : Nat) : Int), x) :: storedFrom j v) := by
  intro v
  induction v with
  | nil => intro j i h; simp at h
  | cons b v ih =>
    intro j i h
    cases i with
    | zero =>
      simp only [List.set_cons_zero, List.getD_cons_zero, storedFrom, Option.getD_some,
        List.map_append, List.map_cons, List.map_nil, Nat.add_zero, List.append_assoc,
        List.singleton_append]
      exact List.perm_middle
    | succ i =>
      simp only [List.set_cons_succ, List.getD_cons_succ, storedFrom]
      have h1 := ih (j + 1) i (by simpa using h)
      have e : j + 1 + i = j + (i + 1) := by omega
      rw [e] at h1
      exact (h1.append_left _).trans List.perm_middle

theorem bucketInsert_extend (v : Buckets) (p1 : Entry) (h0 : 0 ≤ p1.1)
    (hl : v.length ≤ p1.1.toNat) :
    bucketInsert v p1 = v ++ List.replicate (p1.1.toNat - v.length) none ++ [some [p1.2]] := by
  have hk : ((p1.1.toNat : Nat) : Int) = p1.1 := Int.toNat_of_nonneg h0
  have h1 : (p1.1 + 1).toNat = p1.1.toNat + 1 := by omega
  have hr : resize v (p1.1.toNat + 1)
      = (v ++ List.replicate (p1.1.toNat - v.length) none) ++ [none] := by
    unfold resize
    rw [List.take_of_length_le (by omega), List.append_assoc, ← List.replicate_succ']
    have e : p1.1.toNat + 1 - v.length = p1.1.toNat - v.length + 1 := by omega
    rw [e]
  have hwl : (v ++ List.replicate (p1.1.toNat - v.length) none).length = p1.1.toNat := by
    rw [List.length_append, List.length_replicate]
    omega
  unfold bucketInsert
  simp only
  rw [if_pos (by omega), h1, hr, List.getD_append_right _ _ _ _ (by omega),
    List.set_append_right _ _ (by omega), hwl, Nat.sub_self]
  simp

theorem bucketInsert_inside (v : Buckets) (p1 : Entry) (h0 : 0 ≤ p1.1)
    (hl : p1.1.toNat < v.length) :
    bucketInsert v p1
      = v.set p1.1.toNat (some ((v.getD p1.1.toNat none).getD [] ++ [p1.2])) := by
  unfold bucketInsert
  simp only
  rw [if_neg (by omega)]

theorem bucketInsert_spec (v : Buckets) (p1 : Entry) (hi : BInv v) (h0 : 0 ≤ p1.1) :
    BInv (bucketInsert v p1) ∧ List.Perm (stored (bucketInsert v p1)) (p1 :: stored v) := by
  have hk : ((p1.1.toNat : Nat) : Int) = p1.1 := Int.toNat_of_nonneg h0
  by_cases hl : v.length ≤ p1.1.toNat
  · rw [bucketInsert_extend v p1 h0 hl]
    refine ⟨⟨fun q hq => ?_, Or.inr ⟨_, _, rfl⟩⟩, ?_⟩
    · rcases List.mem_append.mp hq with hq | hq
      · rcases List.mem_append.mp hq with hq | hq
        · exact hi.1 q hq
        · have := List.eq_of_mem_replicate hq
          simp at this
      · simp only [List.mem_singleton, Option.some.injEq] at hq
        rw [hq]
        simp
    · unfold stored
      rw [storedFrom_append, storedFrom_append, storedFrom_replicate_none, storedFrom_singleton,
        List.append_nil, List.length_append, List.length_replicate]
      have e : 0 + (v.length + (p1.1.toNat - v.length)) = p1.1.toNat := by omega
      rw [e, hk]
      exact List.perm_append_singleton _ _
  · have hl2 : p1.1.toNat < v.length := by omega
    rw [bucketInsert_inside v p1 h0 hl2]
    refine ⟨⟨fun q hq => ?_, ?_⟩, ?_⟩
    · rcases List.mem_or_eq_of_mem_set hq with hq | hq
      · exact hi.1 q hq
      · simp only [Option.some.injEq] at hq
        rw [hq]
        simp
    · rcases hi.2 with ht | ⟨init, q, ht⟩
      · rw [ht] at hl2
        simp at hl2
      · right
        by_cases hlt : p1.1.toNat < init.length
        · refine ⟨init.set p1.1.toNat (some ((v.getD p1.1.toNat none).getD [] ++ [p1.2])), q, ?_⟩
          rw [ht, List.set_append_left _ _ hlt, ← ht]
        · refine ⟨init, (v.getD p1.1.toNat none).getD [] ++ [p1.2], ?_⟩
          have hle : init.length ≤ p1.1.toNat := by omega
          have he : p1.1.toNat - init.length = 0 := by
            rw [ht] at hl2
            simp only [List.length_append, List.length_singleton] at hl2
            omega
          rw [ht, List.set_append_right _ _ hle, he, ← ht]
          rfl
    · have h1 := storedFrom_set_push p1.2 v 0 p1.1.toNat hl2
      rw [Nat.zero_add, hk] at h1
      exact h1

theorem bucketReset_eq_nil (v : Buckets) : bucketReset v = [] := by
  unfold bucketReset
  rw [List.rdropWhile_eq_nil_iff]
  intro _ _
  rfl

theorem bucketInv_nil : BInv [] := ⟨fun _ h => by simp at h, Or.inl rfl⟩

theorem bucketInserts_spec : ∀ (ps : List Entry) (v : Buckets), BInv v →
    (∀ p ∈ ps, (0 : Int) ≤ p.1) →
    BInv (ps.foldl bucketInsert v) ∧
    List.Perm (stored (ps.foldl bucketInsert v)) (ps ++ stored v) := by
  intro ps
  induction ps with
  | nil => intro v hi _; exact ⟨hi, List.Perm.refl _⟩
  | cons p ps ih =>
    intro v hi hp
    obtain ⟨b1, b2⟩ := bucketInsert_spec v p hi (hp p (List.mem_cons_self _ _))
    obtain ⟨i1, i2⟩ := ih (bucketInsert v p) b1 (fun r hr => hp r (List.mem_cons_of_mem _ hr))
    refine ⟨i1, ?_⟩
    show List.Perm (stored (ps.foldl bucketInsert (bucketInsert v p))) _
    refine i2.trans ((b2.append_left ps).trans ?_)
    simp only [List.cons_append]
    exact List.perm_middle

theorem bucketDeletes_short : ∀ (n : Nat) (v : Buckets), v.length ≤ 1 →
    bucketDeletes n v = ([], v) := by
  intro n
  induction n with
  | zero => intro v _; rfl
  | succ n ih =>
    intro v h
    rw [bucketDeletes, bucketDeleteMax_short v h, ih v h]
    rfl

theorem stored_nonempty_of_long (v : Buckets) (hi : BInv v) (h : 1 ≤ v.length) :
    1 ≤ (stored v).length := by
  rcases hi.2 with ht | ⟨init, q, ht⟩
  · rw [ht] at h
    simp at h
  · have hq : q ≠ [] := hi.1 q (by rw [ht]; simp)
    obtain ⟨y, q, rfl⟩ := List.exists_cons_of_ne_nil hq
    unfold stored
    rw [ht, storedFrom_append, storedFrom_singleton]
    simp only [List.length_append, Option.getD_some, List.length_map, List.length_cons]
    omega

theorem bucketDeletes_spec : ∀ (n : Nat) (v : Buckets), BInv v →
    BInv (bucketDeletes n v).2 ∧
    List.Perm ((bucketDeletes n v).1 ++ stored (bucketDeletes n v).2) (stored v) ∧
    (∀ e ∈ (bucketDeletes n v).1, (1 : Int) ≤ e.1) ∧
    ((stored v).length ≤ n → (bucketDeletes n v).2.length ≤ 1) := by
  intro n
  induction n with
  | zero =>
    intro v hi
    refine ⟨hi, List.Perm.refl _, fun e he => by simp [bucketDeletes] at he, fun h => ?_⟩
    show v.length ≤ 1
    by_contra hc
    have := stored_nonempty_of_long v hi (by omega)
    omega
  | succ n ih =>
    intro v hi
    by_cases hs : v.length ≤ 1
    · rw [bucketDeletes_short _ v hs]
      exact ⟨hi, List.Perm.refl _, fun e he => by simp at he, fun _ => hs⟩
    · obtain ⟨e, w, d1, d2, d3, d4⟩ := bucketDeleteMax_long v hi (by omega)
      obtain ⟨i1, i2, i3, i4⟩ := ih w d2
      have e1 : (bucketDeletes (n + 1) v).1 = e :: (bucketDeletes n w).1 := by
        rw [bucketDeletes, d1]
        rfl
      have e2 : (bucketDeletes (n + 1) v).2 = (bucketDeletes n w).2 := by
        rw [bucketDeletes, d1]
      rw [e1, e2]
      refine ⟨i1, ?_, ?_, ?_⟩
      · simp only [List.cons_append]
        exact (i2.cons e).trans d3.symm
      · intro r hr
        rcases List.mem_cons.mp hr with hr | hr
        · rw [hr, d4]
          omega
        · exact i3 r hr
      · intro hle
        apply i4
        have := d3.length_eq
        rw [List.length_cons] at this
        omega

theorem bucketStep_inv (v : Buckets) (op : BucketOp) (hi : BInv v) (hv : op.valid = true) :
    BInv (bucketStep v op) := by
  cases op with
  | insert p1 =>
    have h0 : (0 : Int) ≤ p1.1 := by
      simpa [BucketOp.valid] using hv
    exact (bucketInsert_spec v p1 hi h0).1
  | deleteMax =>
    show BInv (bucketDeleteMax v).2
    by_cases hs : v.length ≤ 1
    · rw [bucketDeleteMax_short v hs]
      exact hi
    · obtain ⟨e, w, d1, d2, _, _⟩ := bucketDeleteMax_long v hi (by omega)
      rw [d1]
      exact d2
  | peek => exact hi
  | reset =>
    show BInv (bucketReset v)
    rw [bucketReset_eq_nil]
    exact bucketInv_nil

theorem bucketRun_inv_from : ∀ (ops : List BucketOp) (v : Buckets), BInv v →
    (∀ op ∈ ops, op.valid = true) → BInv (ops.foldl bucketStep v) := by
  intro ops
  induction ops with
  | nil => intro v hi _; exact hi
  | cons op ops ih =>
    intro v hi hv
    exact ih _ (bucketStep_inv v op hi (hv op (List.mem_cons_self _ _)))
      (fun o ho => hv o (List.mem_cons_of_mem _ ho))

/-! ## The claims about the vector of queues -/

/-- C6, as stated, fails: after inserting the single entry (0, 1) into the empty bucket vector,
one `d 3` prints nothing and the vector still has length 1 with the entry stored. -/
theorem C6_counterexample :
    (∀ p ∈ [((0 : Int), (1 : Int))], (0 : Int) ≤ p.1) ∧
    (bucketDeletes 1 ([((0 : Int), (1 : Int))].foldl bucketInsert [])).1 = [] ∧
    (bucketDeletes 1 ([((0 : Int), (1 : Int))].foldl bucketInsert [])).2 = [some [1]] ∧
    ¬ ((bucketDeletes 1 ([((0 : Int), (1 : Int))].foldl bucketInsert [])).2.length = 0 ∧
        List.Perm (bucketDeletes 1 ([((0 : Int), (1 : Int))].foldl bucketInsert [])).1
          [((0 : Int), (1 : Int))]) := by
  refine ⟨by decide, by decide, by decide, ?_⟩
  intro h
  exact absurd h.1 (by decide)

/-- C6, amended: after any `n` inserts with non-negative priorities into the empty bucket vector,
`n` commands `d 3` print exactly the inserted entries of priority at least 1 and leave only the
priority-0 entries stored, in a vector of length at most 1; when every inserted priority is at
least 1 the vector is left with length 0 and every inserted entry has been printed; a further
deleteMax or peek prints nothing and changes nothing. -/
theorem C6_bucket_round_trip_amended (ps : List Entry) (hps : ∀ p ∈ ps, (0 : Int) ≤ p.1) :
    List.Perm (bucketDeletes ps.length (ps.foldl bucketInsert [])).1
      (ps.filter (fun p => decide (1 ≤ p.1))) ∧
    (bucketDeletes ps.length (ps.foldl bucketInsert [])).2.length ≤ 1 ∧
    List.Perm (stored (bucketDeletes ps.length (ps.foldl bucketInsert [])).2)
      (ps.filter (fun p => decide (p.1 = 0))) ∧
    ((∀ p ∈ ps, (1 : Int) ≤ p.1) →
      (bucketDeletes ps.length (ps.foldl bucketInsert [])).2.length = 0 ∧
      List.Perm (bucketDeletes ps.length (ps.foldl bucketInsert [])).1 ps) ∧
    bucketDeleteMax (bucketDeletes ps.length (ps.foldl bucketInsert [])).2
      = (none, (bucketDeletes ps.length (ps.foldl bucketInsert [])).2) ∧
    bucketPeek (bucketDeletes ps.length (ps.foldl bucketInsert [])).2 = none := by
  obtain ⟨i1, i2⟩ := bucketInserts_spec ps [] bucketInv_nil hps
  have e0 : stored [] = [] := rfl
  rw [e0, List.append_nil] at i2
  obtain ⟨d1, d2, d3, d4⟩ := bucketDeletes_spec ps.length _ i1
  have hlen := d4 (by rw [i2.length_eq])
  have hperm := d2.trans i2
  have hzero : ∀ e ∈ stored (bucketDeletes ps.length (ps.foldl bucketInsert [])).2,
      e.1 = 0 := by
    intro e he
    have := mem_storedFrom_bounds _ 0 e he
    omega
  have hout : List.Perm (bucketDeletes ps.length (ps.foldl bucketInsert [])).1
      (ps.filter (fun p => decide (1 ≤ p.1))) := by
    have h1 := hperm.filter (fun p => decide (1 ≤ p.1))
    have f1 : (bucketDeletes ps.length (ps.foldl bucketInsert [])).1.filter
        (fun p => decide (1 ≤ p.1)) = (bucketDeletes ps.length (ps.foldl bucketInsert [])).1 :=
      List.filter_eq_self.mpr (fun a ha => by simpa using d3 a ha)
    have f2 : (stored (bucketDeletes ps.length (ps.foldl bucketInsert [])).2).filter
        (fun p => decide (1 ≤ p.1)) = [] :=
      List.filter_eq_nil_iff.mpr (fun a ha => by simp [hzero a ha])
    rw [List.filter_append, f1, f2, List.append_nil] at h1
    exact h1
  have hrest : List.Perm (stored (bucketDeletes ps.length (ps.foldl bucketInsert [])).2)
      (ps.filter (fun p => decide (p.1 = 0))) := by
    have h1 := hperm.filter (fun p => decide (p.1 = 0))
    have f1 : (bucketDeletes ps.length (ps.foldl bucketInsert [])).1.filter
        (fun p => decide (p.1 = 0)) = [] :=
      List.filter_eq_nil_iff.mpr (fun a ha => by
        have := d3 a ha
        simp only [decide_eq_true_eq]
        omega)
    have f2 : (stored (bucketDeletes ps.length (ps.foldl bucketInsert [])).2).filter
        (fun p => decide (p.1 = 0))
        = stored (bucketDeletes ps.length (ps.foldl bucketInsert [])).2 :=
      List.filter_eq_self.mpr (fun a ha => by simpa using hzero a ha)
    rw [List.filter_append, f1, f2, List.nil_append] at h1
    exact h1
  refine ⟨hout, hlen, hrest, fun hall => ?_, bucketDeleteMax_short _ hlen, ?_⟩
  · constructor
    · by_contra hc
      have h1 := stored_nonempty_of_long _ d1 (by omega)
      have h2 : ps.filter (fun p => decide (p.1 = 0)) = [] :=
        List.filter_eq_nil_iff.mpr (fun a ha => by
          have := hall a ha
          simp only [decide_eq_true_eq]
          omega)
      rw [h2] at hrest
      have h3 := hrest.length_eq
      rw [List.length_nil] at h3
      omega
    · have h2 : ps.filter (fun p => decide (1 ≤ p.1)) = ps :=
        List.filter_eq_self.mpr (fun a ha => by simpa using hall a ha)
      rw [h2] at hout
      exact hout
  · unfold bucketPeek
    rw [if_pos (by omega)]

/-- Witness for the amended C6: priorities 7, 0, 3. -/
theorem C6_bucket_round_trip_amended_witness :
    (∀ p ∈ [((7 : Int), (1 : Int)), (0, 2), (3, 3)], (0 : Int) ≤ p.1) ∧
    (bucketDeletes 3 ([((7 : Int), (1 : Int)), (0, 2), (3, 3)].foldl bucketInsert [])).2.length
      ≤ 1 :=
  ⟨by decide, (C6_bucket_round_trip_amended [(7, 1), (0, 2), (3, 3)] (by decide)).2.1⟩

/-- C9: for every priority `p ≥ 1`, inserting one entry `(p, x)` into the empty bucket vector
gives a vector of length `p + 1`, and one `d 3` then prints `(p, x)` and leaves the vector with
length 0, not `p + 1`; with `p = 7` the length is 0, not 8. -/
theorem C9_bucket_trimming (p x : Int) (hp : 1 ≤ p) :
    ((bucketInsert [] (p, x)).length : Int) = p + 1 ∧
    (bucketDeleteMax (bucketInsert [] (p, x))).1 = some (p, x) ∧
    (bucketDeleteMax (bucketInsert [] (p, x))).2 = [] ∧
    (bucketDeleteMax (bucketInsert [] (p, x))).2.length = 0 ∧
    ((bucketDeleteMax (bucketInsert [] (p, x))).2.length : Int) ≠ p + 1 ∧
    (bucketDeleteMax (bucketInsert [] (7, x))).2.length = 0 := by
  have key : ∀ r : Int, 1 ≤ r →
      ((bucketInsert [] (r, x)).length : Int) = r + 1 ∧
      bucketDeleteMax (bucketInsert [] (r, x)) = (some (r, x), []) := by
    intro r hr
    have e1 : bucketInsert [] (r, x) = List.replicate r.toNat none ++ [some [x]] := by
      rw [bucketInsert_extend [] (r, x) (by show (0 : Int) ≤ r; omega) (Nat.zero_le _)]
      simp
    have hk : ((r.toNat : Nat) : Int) = r := Int.toNat_of_nonneg (by omega)
    rw [e1]
    constructor
    · rw [List.length_append, List.length_replicate, List.length_singleton]
      push_cast
      omega
    · rw [bucketDeleteMax_concat _ x [] (by rw [List.length_replicate]; omega), if_pos rfl,
        trimNull_replicate_none, List.length_replicate, hk]
  obtain ⟨k1, k2⟩ := key p hp
  obtain ⟨_, k3⟩ := key 7 (by decide)
  rw [k2, k3]
  refine ⟨k1, rfl, rfl, rfl, ?_, rfl⟩
  simp only [List.length_nil, Nat.cast_zero]
  omega

/-- Witness for C9: priority 7, payload 1. -/
theorem C9_bucket_trimming_witness :
    (1 : Int) ≤ 7 ∧ (bucketDeleteMax (bucketInsert [] (7, 1))).1 = some (7, 1) ∧
    (bucketDeleteMax (bucketInsert [] (7, 1))).2.length = 0 :=
  ⟨by decide, (C9_bucket_trimming 7 1 (by decide)).2.1, (C9_bucket_trimming 7 1 (by decide)).2.2.2.1⟩

/-- C10: in every bucket vector reached from the empty one by inserts of non-negative priority,
deleteMax, peeks and resets, the vector is empty or its last slot is an allocated, non-empty
queue; and its length is 0 or 1 + the largest priority of any stored entry. -/
theorem C10_bucket_invariant (ops : List BucketOp) (hv : ∀ op ∈ ops, op.valid = true) :
    (bucketRun ops = [] ∨
      ∃ q : List Int, (bucketRun ops).getLast? = some (some q) ∧ q ≠ []) ∧
    ((bucketRun ops).length = 0 ∨
      ((∃ e ∈ stored (bucketRun ops), ((bucketRun ops).length : Int) = 1 + e.1) ∧
        ∀ e ∈ stored (bucketRun ops), 1 + e.1 ≤ ((bucketRun ops).length : Int))) := by
  have hi : BInv (bucketRun ops) := bucketRun_inv_from ops [] bucketInv_nil hv
  rcases hi.2 with ht | ⟨init, q, ht⟩
  · exact ⟨Or.inl ht, Or.inl (by rw [ht]; rfl)⟩
  · have hq : q ≠ [] := hi.1 q (by rw [ht]; simp)
    refine ⟨Or.inr ⟨q, by rw [ht, List.getLast?_concat], hq⟩, Or.inr ⟨?_, ?_⟩⟩
    · obtain ⟨y, q2, rfl⟩ := List.exists_cons_of_ne_nil hq
      refine ⟨((init.length : Int), y), ?_, ?_⟩
      · unfold stored
        rw [ht, storedFrom_append, storedFrom_singleton]
        simp
      · rw [ht, List.length_append, List.length_singleton]
        push_cast
        omega
    · intro e he
      have := mem_storedFrom_bounds _ 0 e he
      omega

/-- Witness for C10: a run with inserts, a deleteMax, a peek and a reset. -/
theorem C10_bucket_invariant_witness :
    (∀ op ∈ [BucketOp.insert (7, 1), BucketOp.insert (0, 2), BucketOp.deleteMax, BucketOp.peek,
        BucketOp.reset, BucketOp.insert (3, 4)], op.valid = true) ∧
    (bucketRun [BucketOp.insert (7, 1), BucketOp.insert (0, 2), BucketOp.deleteMax,
        BucketOp.peek, BucketOp.reset, BucketOp.insert (3, 4)] = [] ∨
      ∃ q : List Int, (bucketRun [BucketOp.insert (7, 1), BucketOp.insert (0, 2),
        BucketOp.deleteMax, BucketOp.peek, BucketOp.reset,
        BucketOp.insert (3, 4)]).getLast? = some (some q) ∧ q ≠ []) :=
  ⟨by decide, (C10_bucket_invariant _ (by decide)).1⟩

/-! ## Invariant of the sorted list, empty engines, peek and reset -/

theorem listStep_sorted (pq : List Entry) (op : ListOp)
    (hs : List.Sorted (fun a b : Entry => a.1 ≥ b.1) pq) :
    List.Sorted (fun a b : Entry => a.1 ≥ b.1) (listStep pq op) := by
  cases op with
  | insert p1 =>
    show List.Sorted _ (listInsert pq p1)
    rw [listInsert_eq_insertScan]
    exact insertScan_sorted p1 pq hs
  | deleteMax =>
    cases pq with
    | nil => exact List.sorted_nil
    | cons hd next => exact (List.sorted_cons.mp hs).2
  | peek => exact hs
  | reset => exact List.sorted_nil

theorem listRun_sorted_from : ∀ (ops : List ListOp) (pq : List Entry),
    List.Sorted (fun a b : Entry => a.1 ≥ b.1) pq →
    List.Sorted (fun a b : Entry => a.1 ≥ b.1) (ops.foldl listStep pq) := by
  intro ops
  induction ops with
  | nil => intro pq hs; exact hs
  | cons op ops ih =>
    intro pq hs
    exact ih _ (listStep_sorted pq op hs)

/-- C11: in every chain reached from the empty list by inserts, deleteMax, peeks and resets, the
priorities are non-increasing from head to tail (each node at least its successor, and at least
every later node), so the entry reported from the head is a maximum of all stored entries. -/
theorem C11_list_sorted_invariant (ops : List ListOp) :
    List.Sorted (fun a b : Entry => a.1 ≥ b.1) (listRun ops) ∧
    List.Chain' (fun a b : Entry => a.1 ≥ b.1) (listRun ops) ∧
    (∀ hd, listPeek (listRun ops) = some hd → ∀ e ∈ listRun ops, hd.1 ≥ e.1) := by
  have hs := listRun_sorted_from ops [] List.sorted_nil
  refine ⟨hs, List.Pairwise.chain' hs, ?_⟩
  intro hd hpeek e he
  have hs2 : List.Sorted (fun a b : Entry => a.1 ≥ b.1) (listRun ops) := hs
  cases hrun : listRun ops with
  | nil =>
    rw [hrun] at he
    simp at he
  | cons x rest =>
    rw [hrun] at hpeek he hs2
    have hx : x = hd := by
      simpa [listPeek, peek] using hpeek
    subst hx
    rcases List.mem_cons.mp he with h | h
    · rw [h]
    · exact (List.sorted_cons.mp hs2).1 e h

/-- C13: deleteMax and peek on an empty engine print nothing and leave the state unchanged: the
list with no head, any heap with `size = 0`, and any bucket vector of length at most 1, such as
the vector whose only slot holds priority-0 payloads. -/
theorem C13_empty_is_no_op (h : DynArray) (v : Buckets) (q : List Int) (hs : h.size = 0)
    (hv : v.length ≤ 1) :
    listDeleteMax [] = (none, []) ∧ listPeek [] = none ∧
    heapDeleteMax h = (none, h) ∧ heapPeek h = none ∧
    bucketDeleteMax v = (none, v) ∧ bucketPeek v = none ∧
    bucketDeleteMax [some q] = (none, [some q]) ∧ bucketPeek [some q] = none := by
  refine ⟨rfl, rfl, heapDeleteMax_zero h hs, ?_, bucketDeleteMax_short v hv, ?_,
    bucketDeleteMax_short _ (by simp), ?_⟩
  · unfold heapPeek
    rw [if_neg (not_not.mpr hs)]
  · unfold bucketPeek
    rw [if_pos (by omega)]
  · unfold bucketPeek
    rw [if_pos (by simp)]

/-- Witness for C13: the fresh heap and the vector holding two priority-0 payloads. -/
theorem C13_empty_is_no_op_witness :
    DynArray.empty.size = 0 ∧ ([some [1, 2]] : Buckets).length ≤ 1 ∧
    heapDeleteMax DynArray.empty = (none, DynArray.empty) ∧
    bucketDeleteMax [some [1, 2]] = (none, [some [1, 2]]) ∧ bucketPeek [some [1, 2]] = none :=
  ⟨rfl, by decide,
    (C13_empty_is_no_op DynArray.empty [some [1, 2]] [] rfl (by decide)).2.2.1,
    (C13_empty_is_no_op DynArray.empty [some [1, 2]] [] rfl (by decide)).2.2.2.2.1,
    (C13_empty_is_no_op DynArray.empty [some [1, 2]] [] rfl (by decide)).2.2.2.2.2.1⟩

theorem bucketPeek_eq_of_inv (v : Buckets) (hi : BInv v) :
    bucketPeek v = (bucketDeleteMax v).1 := by
  by_cases hs : v.length ≤ 1
  · rw [bucketDeleteMax_short v hs]
    unfold bucketPeek
    rw [if_pos (by omega)]
  · rcases hi.2 with ht | ⟨init, q, ht⟩
    · rw [ht] at hs
      simp at hs
    · have hq : q ≠ [] := hi.1 q (by rw [ht]; simp)
      obtain ⟨y, q2, rfl⟩ := List.exists_cons_of_ne_nil hq
      have hlen : 1 ≤ init.length := by
        rw [ht] at hs
        simp only [List.length_append, List.length_singleton] at hs
        omega
      have hl : (init ++ [some (y :: q2)]).length = init.length + 1 := by simp
      have hg : (init ++ [some (y :: q2)]).getD init.length none = some (y :: q2) := by
        rw [List.getD_append_right _ _ _ _ (le_refl _)]
        simp
      rw [ht, bucketDeleteMax_concat init y q2 hlen]
      unfold bucketPeek
      rw [hl, if_neg (by push_cast; omega)]
      simp only [Nat.add_sub_cancel, hg, Option.getD_some, List.headD_cons, List.isEmpty_cons,
        Bool.false_eq_true, not_false_eq_true, if_true, Nat.cast_add, Nat.cast_one,
        add_sub_cancel_right]

/-- C14: a peek leaves the state of its engine unchanged, and in every chain, every heap state and
every bucket vector reached by inserts of non-negative priority, deleteMax, peeks and resets, the
peek prints an entry exactly when deleteMax on the same state would, and then the same entry. -/
theorem C14_peek_agrees_with_deleteMax (lops : List ListOp) (hops : List HeapOp)
    (bops : List BucketOp) (hv : ∀ op ∈ bops, op.valid = true) :
    listStep (listRun lops) ListOp.peek = listRun lops ∧
    heapStep (heapRun hops) HeapOp.peek = heapRun hops ∧
    bucketStep (bucketRun bops) BucketOp.peek = bucketRun bops ∧
    listPeek (listRun lops) = (listDeleteMax (listRun lops)).1 ∧
    heapPeek (heapRun hops) = (heapDeleteMax (heapRun hops)).1 ∧
    bucketPeek (bucketRun bops) = (bucketDeleteMax (bucketRun bops)).1 := by
  refine ⟨rfl, rfl, rfl, ?_, ?_, bucketPeek_eq_of_inv _ (bucketRun_inv_from bops [] bucketInv_nil hv)⟩
  · cases listRun lops with
    | nil => rfl
    | cons hd next => rfl
  · unfold heapPeek heapDeleteMax
    split <;> rfl

/-- Witness for C14: a bucket run with two queued payloads of priority 4. -/
theorem C14_peek_agrees_with_deleteMax_witness :
    (∀ op ∈ [BucketOp.insert (4, 1), BucketOp.insert (4, 2)], op.valid = true) ∧
    bucketPeek (bucketRun [BucketOp.insert (4, 1), BucketOp.insert (4, 2)])
      = (bucketDeleteMax (bucketRun [BucketOp.insert (4, 1), BucketOp.insert (4, 2)])).1 :=
  ⟨by decide, (C14_peek_agrees_with_deleteMax [] [] _ (by decide)).2.2.2.2.2⟩

/-- C15: reset of any list, heap or bucket state gives exactly the freshly created state (no head;
size 0, capacity 0, no buffer; vector of length 0), resetting twice is the same as once, and a run
that contains a reset ends in the same state as the commands after the reset run on a new
engine. -/
theorem C15_reset_gives_fresh_state (pq : List Entry) (h : DynArray) (v : Buckets)
    (lops lops2 : List ListOp) (hops hops2 : List HeapOp) (bops bops2 : List BucketOp) :
    listReset pq = [] ∧ h.reset = DynArray.empty ∧
    (h.reset).size = 0 ∧ (h.reset).cap = 0 ∧ (h.reset).arr = none ∧
    bucketReset v = [] ∧ (bucketReset v).length = 0 ∧
    listReset (listReset pq) = listReset pq ∧ (h.reset).reset = h.reset ∧
    bucketReset (bucketReset v) = bucketReset v ∧
    listRun (lops ++ ListOp.reset :: lops2) = listRun lops2 ∧
    heapRun (hops ++ HeapOp.reset :: hops2) = heapRun hops2 ∧
    bucketRun (bops ++ BucketOp.reset :: bops2) = bucketRun bops2 := by
  refine ⟨rfl, rfl, rfl, rfl, rfl, bucketReset_eq_nil v, by rw [bucketReset_eq_nil]; rfl, rfl, rfl,
    by rw [bucketReset_eq_nil, bucketReset_eq_nil], ?_, ?_, ?_⟩
  · unfold listRun
    rw [List.foldl_append, List.foldl_cons]
    rfl
  · unfold heapRun
    rw [List.foldl_append, List.foldl_cons]
    rfl
  · unfold bucketRun
    rw [List.foldl_append, List.foldl_cons]
    show List.foldl bucketStep (bucketReset _) bops2 = _
    rw [bucketReset_eq_nil]

/-! ## Sift-down on ties, shrinking to size 0, and termination of the sift loops -/

/-- C16, as stated, fails: after inserting priorities 5, 5, 5 with payloads 1, 2, 3, `deleteMax`
moves (5,3) to the root, finds its larger child (5,2) of equal priority, and swaps them; the root
afterwards is (5,2), not (5,3). -/
theorem C16_counterexample :
    (rd [((5 : Int), (3 : Int)), (5, 2), (5, 3), (0, 0)]
        (largerChild [((5 : Int), (3 : Int)), (5, 2), (5, 3), (0, 0)] 2 0)).1
      = (rd [((5 : Int), (3 : Int)), (5, 2), (5, 3), (0, 0)] 0).1 ∧
    siftDown [((5 : Int), (3 : Int)), (5, 2), (5, 3), (0, 0)] 2 0
      = [(5, 2), (5, 3), (5, 3), (0, 0)] ∧
    (([((5 : Int), (1 : Int)), (5, 2), (5, 3)].foldl heapInsert DynArray.empty).deleteMax.2).arr
      = some [(5, 2), (5, 3), (5, 3), (0, 0)] ∧
    rd (([((5 : Int), (1 : Int)), (5, 2), (5, 3)].foldl heapInsert
        DynArray.empty).deleteMax.2).buf 0 = (5, 2) ∧
    rd (([((5 : Int), (1 : Int)), (5, 2), (5, 3)].foldl heapInsert
        DynArray.empty).deleteMax.2).buf 0 ≠ (5, 3) := by
  refine ⟨by decide, ?_, ?_, ?_, ?_⟩
  · rw [siftDown_eval]
    decide
  · simp only [List.foldl, heapInsert, DynArray.insert, DynArray.deleteMax, siftUp_eval,
      siftDown_eval]
    decide
  · simp only [List.foldl, heapInsert, DynArray.insert, DynArray.deleteMax, siftUp_eval,
      siftDown_eval]
    decide
  · simp only [List.foldl, heapInsert, DynArray.insert, DynArray.deleteMax, siftUp_eval,
      siftDown_eval]
    decide

/-- C16, amended: a round of the sift-down loop at slot `i` stops without a swap only when slot `i`
has no child below `size` or its priority strictly exceeds that of its larger child; when the
larger child's priority is greater than or equal to it, the two slots are swapped and the loop
goes on from the child.  After inserting 5, 5, 5 with payloads 1, 2, 3 and one `deleteMax`, the
root is (5,2). -/
theorem C16_sift_down_swaps_on_ties (arr : List Entry) (size i : Nat) :
    (¬ left i < size → siftDown arr size i = arr) ∧
    (left i < size → (rd arr i).1 > (rd arr (largerChild arr size i)).1 →
      siftDown arr size i = arr) ∧
    (left i < size → (rd arr (largerChild arr size i)).1 ≥ (rd arr i).1 →
      siftDown arr size i
        = siftDown (wr (wr arr i (rd arr (largerChild arr size i))) (largerChild arr size i)
            (rd arr i)) size (largerChild arr size i)) ∧
    rd (([((5 : Int), (1 : Int)), (5, 2), (5, 3)].foldl heapInsert
        DynArray.empty).deleteMax.2).buf 0 = (5, 2) := by
  refine ⟨siftDown_stop arr size i, siftDown_break arr size i, ?_, ?_⟩
  · intro h hge
    exact siftDown_step arr size i h (by omega)
  · simp only [List.foldl, heapInsert, DynArray.insert, DynArray.deleteMax, siftUp_eval,
      siftDown_eval]
    decide

/-- C17, as stated, fails: the heap holding the single entry (5, 1) has capacity 1 and a one-slot
buffer; `deleteMax` leaves capacity 0 and a zero-length buffer. -/
theorem C17_counterexample :
    (heapInsert DynArray.empty (5, 1)).size = 1 ∧
    (heapInsert DynArray.empty (5, 1)).cap = 1 ∧
    (heapInsert DynArray.empty (5, 1)).arr = some [(5, 1)] ∧
    ((heapInsert DynArray.empty (5, 1)).deleteMax.2).size = 0 ∧
    ((heapInsert DynArray.empty (5, 1)).deleteMax.2).cap = 0 ∧
    ((heapInsert DynArray.empty (5, 1)).deleteMax.2).arr = some [] ∧
    ¬ (((heapInsert DynArray.empty (5, 1)).deleteMax.2).cap = (heapInsert DynArray.empty (5, 1)).cap ∧
        ((heapInsert DynArray.empty (5, 1)).deleteMax.2).arr
          = (heapInsert DynArray.empty (5, 1)).arr) := by
  have e1 : (heapInsert DynArray.empty (5, 1)).arr = some [(5, 1)] := by
    simp only [heapInsert, DynArray.insert, siftUp_eval]
    decide
  have e2 : ((heapInsert DynArray.empty (5, 1)).deleteMax.2).cap = 0 := by
    simp only [heapInsert, DynArray.insert, DynArray.deleteMax, siftUp_eval, siftDown_eval]
    decide
  have e3 : ((heapInsert DynArray.empty (5, 1)).deleteMax.2).arr = some [] := by
    simp only [heapInsert, DynArray.insert, DynArray.deleteMax, siftUp_eval, siftDown_eval]
    decide
  refine ⟨rfl, rfl, e1, rfl, e2, e3, ?_⟩
  intro h
  rw [e2] at h
  exact absurd h.1 (by decide)

theorem siftUp_root (arr : List Entry) : siftUp arr 0 = arr := by
  apply siftUp_stop
  intro h
  have h1 := (siftUp_guard_pos arr 0 h).1
  omega

/-- C17, amended: when `deleteMax` removes the last entry (size becomes 0) the shrink step is not
skipped: it sets the capacity to 0 and replaces the buffer by a zero-length allocation; the next
insert then allocates a fresh one-slot buffer and sets the capacity to 1. -/
theorem C17_shrink_runs_at_size_zero (h : DynArray) (p : Entry) (hs : h.size = 1) :
    h.deleteMax.2 = DynArray.mk 0 0 (some []) ∧
    (h.deleteMax.2).insert p = DynArray.mk 1 1 (some [p]) := by
  have e : h.deleteMax.2 = DynArray.mk 0 0 (some []) := by
    show DynArray.shrink (h.size - 1) h.cap _ = _
    rw [hs]
    unfold DynArray.shrink
    rw [if_pos (by omega)]
    rfl
  refine ⟨e, ?_⟩
  rw [e]
  show DynArray.mk (0 + 1) (0 + 1) (some (siftUp (wr [(0, 0)] 0 p) 0)) = _
  rw [siftUp_root]
  rfl

/-- Witness for C17: the heap holding the single entry (5, 1). -/
theorem C17_shrink_runs_at_size_zero_witness :
    (heapInsert DynArray.empty (5, 1)).size = 1 ∧
    (heapInsert DynArray.empty (5, 1)).deleteMax.2 = DynArray.mk 0 0 (some []) :=
  ⟨rfl, (C17_shrink_runs_at_size_zero (heapInsert DynArray.empty (5, 1)) (9, 2) rfl).1⟩

theorem siftUpLoop_eq (fuel : Nat) : ∀ (arr : List Entry) (i : Nat), i ≤ fuel →
    siftUpLoop (fuel + 1) arr i = some (siftUp arr i) := by
  induction fuel with
  | zero =>
    intro arr i h
    have hi : i = 0 := by omega
    subst hi
    rw [siftUpLoop, siftUp_root]
    have hc : ¬ (0 ≤ parent ((0 : Nat) : Int) ∧
        (rd arr (parent ((0 : Nat) : Int)).toNat).1 < (rd arr 0).1) := by
      intro h
      have h1 := (siftUp_guard_pos arr 0 h).1
      omega
    rw [if_neg hc]
  | succ f ih =>
    intro arr i h
    rw [siftUpLoop]
    by_cases hc : 0 ≤ parent i ∧ (rd arr (parent i).toNat).1 < (rd arr i).1
    · have hp := siftUp_guard_pos arr i hc
      rw [if_pos hc, siftUp_step arr i hc, parent_toNat]
      exact ih _ _ (by omega)
    · rw [if_neg hc, siftUp_stop arr i hc]

theorem siftDownLoop_eq (fuel : Nat) : ∀ (arr : List Entry) (size i : Nat), size - i ≤ fuel →
    siftDownLoop (fuel + 1) arr size i = some (siftDown arr size i) := by
  induction fuel with
  | zero =>
    intro arr size i h
    have hc : ¬ left i < size := by unfold left; omega
    rw [siftDownLoop, if_neg hc, siftDown_stop arr size i hc]
  | succ f ih =>
    intro arr size i h
    rw [siftDownLoop]
    by_cases hc : left i < size
    · rw [if_pos hc]
      by_cases hb : (rd arr i).1 > (rd arr (largerChild arr size i)).1
      · rw [if_pos hb, siftDown_break arr size i hc hb]
      · rw [if_neg hb, siftDown_step arr size i hc hb]
        have := largerChild_bounds arr size i hc
        exact ih _ _ _ (by omega)
    · rw [if_neg hc, siftDown_stop arr size i hc]

/-- C19: the sift loops terminate.  `parent(0)` is 0, so at the root the sift-up guard compares
`arr[0]` with itself and fails; whenever the guard holds the parent index is strictly smaller; and
the loop started at `i` leaves within `i + 1` evaluations of its guard.  In sift-down the chosen
child index is strictly larger than `i` and below `size`, and the loop started at `i` leaves
within `size - i + 1` evaluations of its guard. -/
theorem C19_sift_loops_terminate (arr : List Entry) (size i : Nat) :
    parent 0 = 0 ∧
    ¬ (0 ≤ parent ((0 : Nat) : Int) ∧ (rd arr (parent ((0 : Nat) : Int)).toNat).1 < (rd arr 0).1) ∧
    ((0 ≤ parent (i : Int) ∧ (rd arr (parent (i : Int)).toNat).1 < (rd arr i).1) →
      (parent (i : Int)).toNat < i) ∧
    siftUpLoop (i + 1) arr i = some (siftUp arr i) ∧
    (left i < size → i < largerChild arr size i ∧ largerChild arr size i < size) ∧
    siftDownLoop (size - i + 1) arr size i = some (siftDown arr size i) := by
  refine ⟨by decide, ?_, ?_, siftUpLoop_eq i arr i (le_refl _), largerChild_bounds arr size i,
    siftDownLoop_eq (size - i) arr size i (le_refl _)⟩
  · intro h
    have h1 := (siftUp_guard_pos arr 0 h).1
    omega
  · intro h
    have h1 := (siftUp_guard_pos arr i h).1
    rw [parent_toNat]
    omega

/-! ## Index safety of the heap -/

theorem siftUpC_eq : ∀ (i : Nat) (arr : List Entry), i < arr.length →
    siftUpC arr i = some (siftUp arr i) := by
  intro i
  induction i using Nat.strong_induction_on with
  | _ i ih =>
    intro arr hi
    have hb : (parent (i : Int)).toNat < arr.length ∧ i < arr.length := by
      rw [parent_toNat]
      exact ⟨by omega, hi⟩
    rw [siftUpC, dif_pos (parent_nonneg i), if_pos hb]
    by_cases hc : (rd arr (parent i).toNat).1 < (rd arr i).1
    · have hg : 0 ≤ parent i ∧ (rd arr (parent i).toNat).1 < (rd arr i).1 :=
        ⟨parent_nonneg i, hc⟩
      have hp := siftUp_guard_pos arr i hg
      rw [dif_pos hc, siftUp_step arr i hg]
      simp only [parent_toNat]
      exact ih _ (by omega) _ (by rw [length_wr, length_wr]; omega)
    · rw [dif_neg hc, siftUp_stop arr i (fun h => hc h.2)]

theorem siftDownC_eq (size : Nat) : ∀ (k i : Nat) (arr : List Entry), size - i ≤ k →
    size ≤ arr.length → siftDownC arr size i = some (siftDown arr size i) := by
  intro k
  induction k with
  | zero =>
    intro i arr hk _
    have hc : ¬ left i < size := by unfold left; omega
    rw [siftDownC, dif_neg hc, siftDown_stop arr size i hc]
  | succ k ih =>
    intro i arr hk hn
    by_cases hc : left i < size
    · have hl := largerChild_bounds arr size i hc
      have hb : (right i < size → right i < arr.length) ∧ left i < arr.length ∧
          i < arr.length := by
        unfold left at hc ⊢
        exact ⟨fun h => by omega, by omega, by omega⟩
      rw [siftDownC, dif_pos hc, if_pos hb]
      by_cases hbr : (rd arr i).1 > (rd arr (largerChild arr size i)).1
      · rw [if_pos hbr, siftDown_break arr size i hc hbr]
      · rw [if_neg hbr, siftDown_step arr size i hc hbr]
        exact ih _ _ (by omega) (by rw [length_wr, length_wr]; exact hn)
    · rw [siftDownC, dif_neg hc, siftDown_stop arr size i hc]

theorem copyLoopC_eq (tmp arr : List Entry) : ∀ n, n ≤ tmp.length → n ≤ arr.length →
    copyLoopC n tmp arr = some (copyLoop n tmp arr) := by
  intro n
  induction n with
  | zero => intro _ _; rfl
  | succ n ih =>
    intro h1 h2
    rw [copyLoopC, ih (by omega) (by omega), Option.some_bind, length_copyLoop,
      if_pos ⟨by omega, by omega⟩]
    rfl

theorem DynArray.growC_eq (h : DynArray) (hi : h.Inv) : h.growC = some h.grow := by
  obtain ⟨h1, h2, h3, _⟩ := hi
  unfold DynArray.growC DynArray.grow
  by_cases hs : h.size = 0
  · rw [if_pos hs, if_pos hs]
  · rw [if_neg hs, if_neg hs]
    by_cases hc : h.size = h.cap
    · rw [if_pos hc, if_pos hc, copyLoopC_eq _ _ _ (by rw [List.length_replicate]; omega)
        (by omega)]
      rfl
    · rw [if_neg hc, if_neg hc]

theorem DynArray.insertC_eq (h : DynArray) (p : Entry) (hi : h.Inv) :
    h.insertC p = some (h.insert p) := by
  obtain ⟨g1, g2, g3, _, _⟩ := h.grow_spec hi
  unfold DynArray.insertC
  rw [DynArray.growC_eq h hi, Option.some_bind, if_pos (by omega),
    siftUpC_eq _ _ (by rw [length_wr]; omega)]
  rfl

theorem DynArray.shrinkC_eq (n cap : Nat) (a : List Entry) (hn : n ≤ a.length) :
    DynArray.shrinkC n cap a = some (DynArray.shrink n cap a) := by
  unfold DynArray.shrinkC DynArray.shrink
  by_cases hc : 4 * n ≤ cap
  · rw [if_pos hc, if_pos hc, copyLoopC_eq _ _ _ (by rw [List.length_replicate]; omega) hn]
    rfl
  · rw [if_neg hc, if_neg hc]

theorem DynArray.deleteMaxC_eq (h : DynArray) (hi : h.Inv) (hs : h.size ≠ 0) :
    h.deleteMaxC = some h.deleteMax := by
  obtain ⟨h1, h2, _, _⟩ := hi
  have hl1 : (wr h.buf 0 (rd h.buf (h.size - 1))).length = h.cap := by rw [length_wr, h1]
  unfold DynArray.deleteMaxC
  rw [if_pos ⟨by omega, by omega⟩,
    siftDownC_eq (h.size - 1) (h.size - 1) 0 _ (by omega) (by omega), Option.some_bind,
    DynArray.shrinkC_eq _ _ _ (by
      rw [siftDown_length (h.size - 1) (h.size - 1) 0 _ (by omega)]
      omega)]
  rfl

/-- C18: in every heap state reached from the empty heap by inserts, guarded deleteMax, peeks and
resets, the buffer has exactly `cap` slots and `size = 0` implies `cap = 0`; `insert`, and on a
non-empty heap `deleteMax` and `peek`, run with every array access inside the buffer it touches
and give the results of the unchecked methods; and an insert into an empty heap leaves capacity 1
with a one-slot buffer.  The invariant is needed: from a state with `size = 0` and `cap = 1` the
first insert leaves capacity 2 over a one-slot buffer and the second writes outside it. -/
theorem C18_heap_index_safety (ops : List HeapOp) (p : Entry) :
    (heapRun ops).buf.length = (heapRun ops).cap ∧
    ((heapRun ops).size = 0 → (heapRun ops).cap = 0) ∧
    (heapRun ops).insertC p = some ((heapRun ops).insert p) ∧
    ((heapRun ops).size ≠ 0 → (heapRun ops).deleteMaxC = some (heapRun ops).deleteMax) ∧
    ((heapRun ops).size ≠ 0 → (heapRun ops).peekC = some (heapRun ops).peek) ∧
    ((heapRun ops).size = 0 →
      ((heapRun ops).insert p).cap = 1 ∧ ((heapRun ops).insert p).buf.length = 1) ∧
    ((DynArray.mk 0 1 none).insert p).insertC p = none := by
  have hi := heapRun_inv ops
  have hi2 := (heapRun ops).insert_inv p hi
  obtain ⟨h1, h2, h3, _⟩ := hi
  have hcap0 : (heapRun ops).size = 0 → (heapRun ops).cap = 0 := fun h => by omega
  refine ⟨h1, hcap0, DynArray.insertC_eq _ p (heapRun_inv ops),
    DynArray.deleteMaxC_eq _ (heapRun_inv ops), fun hs => ?_, fun hs => ?_, ?_⟩
  · unfold DynArray.peekC
    rw [if_pos (by omega)]
    rfl
  · have hc : ((heapRun ops).insert p).cap = 1 := by
      rw [DynArray.insert_cap, DynArray.grow_cap, if_pos hs, hcap0 hs]
    exact ⟨hc, by rw [hi2.1, hc]⟩
  · have hs : ((DynArray.mk 0 1 none).insert p).size = 1 := rfl
    have hc : ((DynArray.mk 0 1 none).insert p).cap = 2 := rfl
    have hb : ((DynArray.mk 0 1 none).insert p).buf.length = 1 := by
      rw [DynArray.insert_buf, siftUp_length, length_wr]
      rfl
    have hg : ((DynArray.mk 0 1 none).insert p).growC
        = some ((DynArray.mk 0 1 none).insert p) := by
      unfold DynArray.growC
      rw [hs, hc, if_neg (by decide), if_neg (by decide)]
    unfold DynArray.insertC
    rw [hg, Option.some_bind, hs, hb, if_neg (by decide)]

/-! ## First-in first-out order inside a bucket -/

theorem slot_of_le (v : Buckets) (i : Nat) (h : v.length ≤ i) : slot v i = [] := by
  unfold slot
  rw [List.getD_eq_default _ _ h]
  rfl

theorem slot_concat (init : Buckets) (b : Option (List Int)) (i : Nat) :
    slot (init ++ [b]) i
      = if i < init.length then slot init i else if i = init.length then b.getD [] else [] := by
  by_cases h1 : i < init.length
  · rw [if_pos h1]
    unfold slot
    rw [List.getD_append _ _ _ _ h1]
  · rw [if_neg h1]
    by_cases h2 : i = init.length
    · rw [if_pos h2, h2]
      unfold slot
      rw [List.getD_append_right _ _ _ _ (le_refl _)]
      simp
    · rw [if_neg h2]
      exact slot_of_le _ _ (by simp only [List.length_append, List.length_singleton]; omega)

theorem slot_concat_none (init : Buckets) (i : Nat) : slot (init ++ [none]) i = slot init i := by
  rw [slot_concat]
  by_cases h1 : i < init.length
  · rw [if_pos h1]
  · rw [if_neg h1, slot_of_le init i (by omega)]
    split <;> rfl

theorem slot_append_replicate_none (v : Buckets) (i : Nat) : ∀ m : Nat,
    slot (v ++ List.replicate m none) i = slot v i := by
  intro m
  induction m with
  | zero => simp
  | succ m ih => rw [List.replicate_succ', ← List.append_assoc, slot_concat_none, ih]

theorem slot_trimNull (i : Nat) : ∀ v : Buckets, slot (trimNull v) i = slot v i := by
  intro v
  induction v using List.reverseRecOn with
  | nil => rfl
  | append_singleton l b ih =>
    cases b with
    | none => rw [trimNull_concat_none, ih, slot_concat_none]
    | some q => rw [trimNull_concat_some]

theorem slot_set (v : Buckets) (k i : Nat) (b : Option (List Int)) (hk : k < v.length) :
    slot (v.set k b) i = if i = k then b.getD [] else slot v i := by
  unfold slot
  rw [List.getD_eq_getElem?_getD, List.getElem?_set]
  by_cases h : k = i
  · subst h
    simp [hk]
  · have h2 : ¬ i = k := fun e => h e.symm
    rw [if_neg h, if_neg h2, List.getD_eq_getElem?_getD]

theorem slot_bucketInsert (v : Buckets) (p1 : Entry) (i : Nat) (h0 : 0 ≤ p1.1) :
    slot (bucketInsert v p1) i = slot v i ++ (if i = p1.1.toNat then [p1.2] else []) := by
  by_cases hl : v.length ≤ p1.1.toNat
  · have hwl : (v ++ List.replicate (p1.1.toNat - v.length) none).length = p1.1.toNat := by
      rw [List.length_append, List.length_replicate]
      omega
    rw [bucketInsert_extend v p1 h0 hl, slot_concat, hwl, slot_append_replicate_none]
    by_cases h1 : i < p1.1.toNat
    · rw [if_pos h1, if_neg (by omega), List.append_nil]
    · rw [if_neg h1, slot_of_le v i (by omega)]
      split <;> rfl
  · have hl2 : p1.1.toNat < v.length := by omega
    rw [bucketInsert_inside v p1 h0 hl2, slot_set _ _ _ _ hl2]
    by_cases h1 : i = p1.1.toNat
    · rw [if_pos h1, if_pos h1, h1]
      rfl
    · rw [if_neg h1, if_neg h1, List.append_nil]

theorem filter_erase_of_neg (f : Entry → Bool) (e : Entry) (he : f e = false) :
    ∀ l : List Entry, (l.erase e).filter f = l.filter f := by
  intro l
  induction l with
  | nil => rfl
  | cons x t ih =>
    by_cases hx : x = e
    · subst hx
      rw [List.erase_cons_head, List.filter_cons, he]
      rfl
    · rw [List.erase_cons_tail (by simpa using hx), List.filter_cons, List.filter_cons, ih]

theorem filter_erase_head (f : Entry → Bool) (e : Entry) (rest : List Entry) :
    ∀ l : List Entry, l.filter f = e :: rest →
      (l.erase e).filter f = rest ∧ l.find? f = some e ∧ e ∈ l := by
  intro l
  induction l with
  | nil => intro h; simp at h
  | cons x t ih =>
    intro h
    rw [List.filter_cons] at h
    by_cases hx : f x = true
    · rw [if_pos hx] at h
      obtain ⟨h1, h2⟩ := List.cons.inj h
      subst h1
      rw [List.erase_cons_head]
      exact ⟨h2, List.find?_cons_of_pos _ hx, List.mem_cons_self _ _⟩
    · rw [if_neg hx] at h
      obtain ⟨i1, i2, i3⟩ := ih h
      have hfe : f e = true := by
        have : e ∈ t.filter f := by rw [h]; exact List.mem_cons_self _ _
        exact (List.mem_filter.mp this).2
      have hne : ¬ x = e := by
        rintro rfl
        exact hx hfe
      rw [List.erase_cons_tail (by simpa using hne), List.filter_cons, if_neg hx,
        List.find?_cons_of_neg _ hx]
      exact ⟨i1, i2, List.mem_cons_of_mem _ i3⟩

theorem perm_cons_erase_entry (e : Entry) : ∀ l : List Entry, e ∈ l →
    List.Perm l (e :: l.erase e) := by
  intro l
  induction l with
  | nil => intro h; simp at h
  | cons x t ih =>
    intro h
    by_cases hx : x = e
    · subst hx
      rw [List.erase_cons_head]
    · rw [List.erase_cons_tail (by simpa using hx)]
      have ht : e ∈ t := by
        rcases List.mem_cons.mp h with h1 | h1
        · exact absurd h1.symm hx
        · exact h1
      exact ((ih ht).cons x).trans (List.Perm.swap _ _ _)

theorem bRel_nil : BRel [] [] := ⟨bucketInv_nil, List.Perm.refl _, fun _ => rfl⟩

theorem bRel_insert (v : Buckets) (a : List Entry) (p1 : Entry) (hr : BRel v a)
    (h0 : 0 ≤ p1.1) : BRel (bucketInsert v p1) (a ++ [p1]) := by
  obtain ⟨r1, r2, r3⟩ := hr
  obtain ⟨b1, b2⟩ := bucketInsert_spec v p1 r1 h0
  refine ⟨b1, b2.trans ((r2.cons p1).trans (List.perm_append_singleton p1 a).symm), fun i => ?_⟩
  rw [slot_bucketInsert v p1 i h0, r3 i, List.filter_append, List.map_append]
  congr 1
  have hk : ((p1.1.toNat : Nat) : Int) = p1.1 := Int.toNat_of_nonneg h0
  by_cases h1 : i = p1.1.toNat
  · have h2 : p1.1 = (i : Int) := by omega
    rw [if_pos h1, List.filter_cons, if_pos (by simpa using h2)]
    rfl
  · have h2 : ¬ p1.1 = (i : Int) := by omega
    rw [if_neg h1, List.filter_cons, if_neg (by simpa using h2)]
    rfl

theorem bRel_deleteMax (v : Buckets) (a : List Entry) (hr : BRel v a) (hl : 2 ≤ v.length) :
    ∃ y : Int,
      (bucketDeleteMax v).1 = some ((v.length : Int) - 1, y) ∧
      BRel (bucketDeleteMax v).2 (a.erase ((v.length : Int) - 1, y)) ∧
      ((v.length : Int) - 1, y) ∈ a ∧
      a.find? (fun e => decide (e.1 = (v.length : Int) - 1)) = some ((v.length : Int) - 1, y) ∧
      List.Perm (stored v) (((v.length : Int) - 1, y) :: stored (bucketDeleteMax v).2) ∧
      ∀ q : Int, a.filter (fun e => decide (e.1 = q))
        = (if (v.length : Int) - 1 = q then [((v.length : Int) - 1, y)] else [])
          ++ (a.erase ((v.length : Int) - 1, y)).filter (fun e => decide (e.1 = q)) := by
  obtain ⟨r1, r2, r3⟩ := hr
  rcases r1.2 with ht | ⟨init, q, ht⟩
  · rw [ht] at hl
    simp at hl
  · have hq : q ≠ [] := r1.1 q (by rw [ht]; simp)
    obtain ⟨y, q2, rfl⟩ := List.exists_cons_of_ne_nil hq
    have hlen : 1 ≤ init.length := by
      rw [ht] at hl
      simp only [List.length_append, List.length_singleton] at hl
      omega
    have hL : (v.length : Int) - 1 = (init.length : Int) := by
      rw [ht]
      simp
    obtain ⟨e, w, d1, d2, d3, d4⟩ := bucketDeleteMax_long v ⟨r1.1, r1.2⟩ hl
    have hdel := bucketDeleteMax_concat init y q2 hlen
    rw [← ht] at hdel
    have he : e = ((init.length : Int), y) := by
      rw [hdel] at d1
      exact ((Option.some.inj (Prod.mk.inj d1).1)).symm
    have hw : w = if q2 = [] then trimNull init else init ++ [some q2] := by
      rw [hdel] at d1
      exact ((Prod.mk.inj d1).2).symm
    subst he
    have hslot : slot v init.length = y :: q2 := by
      rw [ht, slot_concat, if_neg (by omega), if_pos rfl]
      rfl
    have hfil : a.filter (fun e => decide (e.1 = (init.length : Int)))
        = ((init.length : Int), y)
          :: (a.filter (fun e => decide (e.1 = (init.length : Int)))).tail := by
      have h1 := r3 init.length
      rw [hslot] at h1
      cases hf : a.filter (fun e => decide (e.1 = (init.length : Int))) with
      | nil =>
        rw [hf] at h1
        simp at h1
      | cons x t =>
        rw [hf] at h1
        have hx1 : x.1 = (init.length : Int) := by
          have : x ∈ a.filter (fun e => decide (e.1 = (init.length : Int))) := by
            rw [hf]
            exact List.mem_cons_self _ _
          simpa using (List.mem_filter.mp this).2
        have hx2 : y = x.2 := (List.cons.inj h1).1
        have hx : x = ((init.length : Int), y) := Prod.ext hx1 hx2.symm
        rw [hx]
        rfl
    obtain ⟨f1, f2, f3⟩ := filter_erase_head _ _ _ a hfil
    rw [hL, d1]
    refine ⟨y, rfl, ⟨d2, ?_, ?_⟩, f3, f2, d3, ?_⟩
    · exact ((r2.symm.trans d3).symm.trans (perm_cons_erase_entry _ a f3)).cons_inv
    · intro i
      by_cases hi : i = init.length
      · subst hi
        rw [f1]
        have h1 := r3 init.length
        rw [hslot, hfil] at h1
        have h2 : q2 = ((a.filter (fun e => decide (e.1 = (init.length : Int)))).tail).map
            Prod.snd := by
          simp only [List.map_cons] at h1
          exact (List.cons.inj h1).2
        rw [← h2, hw]
        by_cases hq2 : q2 = []
        · rw [if_pos hq2, slot_trimNull, slot_of_le init _ (le_refl _), hq2]
        · rw [if_neg hq2, slot_concat, if_neg (by omega), if_pos rfl]
          rfl
      · have hne : ¬ (init.length : Int) = (i : Int) := by omega
        rw [filter_erase_of_neg _ _ (by simpa using hne), ← r3 i, hw]
        by_cases hq2 : q2 = []
        · rw [if_pos hq2, slot_trimNull, ht, slot_concat]
          by_cases h1 : i < init.length
          · rw [if_pos h1]
          · rw [if_neg h1, if_neg hi, slot_of_le init i (by omega)]
        · rw [if_neg hq2, ht, slot_concat, slot_concat]
          by_cases h1 : i < init.length
          · rw [if_pos h1, if_pos h1]
          · rw [if_neg h1, if_neg h1, if_neg hi, if_neg hi]
    · intro r
      by_cases hr : (init.length : Int) = r
      · rw [if_pos hr, ← hr, f1]
        exact hfil
      · rw [if_neg hr, filter_erase_of_neg _ _ (by simpa using hr)]
        rfl

theorem histStep_fst (s : Buckets × List Entry) (op : BucketOp) :
    (histStep s op).1 = bucketStep s.1 op := by
  cases op <;> rfl

theorem bucketHist_fst_from : ∀ (ops : List BucketOp) (s : Buckets × List Entry),
    (ops.foldl histStep s).1 = ops.foldl bucketStep s.1 := by
  intro ops
  induction ops with
  | nil => intro s; rfl
  | cons op ops ih =>
    intro s
    rw [List.foldl_cons, List.foldl_cons, ih, histStep_fst]

theorem histStep_rel (s : Buckets × List Entry) (op : BucketOp) (hr : BRel s.1 s.2)
    (hv : op.valid = true) : BRel (histStep s op).1 (histStep s op).2 := by
  cases op with
  | insert p1 =>
    have h0 : (0 : Int) ≤ p1.1 := by
      simpa [BucketOp.valid] using hv
    exact bRel_insert s.1 s.2 p1 hr h0
  | deleteMax =>
    by_cases hs : s.1.length ≤ 1
    · show BRel (bucketDeleteMax s.1).2
        (match (bucketDeleteMax s.1).1 with
          | none => s.2
          | some e => s.2.erase e)
      rw [bucketDeleteMax_short s.1 hs]
      exact hr
    · obtain ⟨y, d1, d2, _⟩ := bRel_deleteMax s.1 s.2 hr (by omega)
      show BRel (bucketDeleteMax s.1).2
        (match (bucketDeleteMax s.1).1 with
          | none => s.2
          | some e => s.2.erase e)
      rw [d1]
      exact d2
  | peek => exact hr
  | reset =>
    show BRel (bucketReset s.1) []
    rw [bucketReset_eq_nil]
    exact bRel_nil

theorem bucketHist_rel_from : ∀ (ops : List BucketOp) (s : Buckets × List Entry),
    BRel s.1 s.2 → (∀ op ∈ ops, op.valid = true) →
    BRel (ops.foldl histStep s).1 (ops.foldl histStep s).2 := by
  intro ops
  induction ops with
  | nil => intro s hr _; exact hr
  | cons op ops ih =>
    intro s hr hv
    exact ih _ (histStep_rel s op hr (hv op (List.mem_cons_self _ _)))
      (fun o ho => hv o (List.mem_cons_of_mem _ ho))

theorem bucketHist_fst (ops : List BucketOp) : (bucketHist ops).1 = bucketRun ops :=
  bucketHist_fst_from ops ([], [])

theorem bucketPending_rel (ops : List BucketOp) (hv : ∀ op ∈ ops, op.valid = true) :
    BRel (bucketRun ops) (bucketPending ops) := by
  have h := bucketHist_rel_from ops ([], []) bRel_nil hv
  rw [bucketHist_fst_from] at h
  exact h

theorem bucketPending_deleteMax (ops : List BucketOp) :
    bucketPending (ops ++ [BucketOp.deleteMax])
      = match (bucketDeleteMax (bucketRun ops)).1 with
        | none => bucketPending ops
        | some e => (bucketPending ops).erase e := by
  unfold bucketPending bucketHist
  rw [List.foldl_append, ← bucketHist_fst ops]
  rfl

/-- C12: in every bucket vector of length `L > 1` reached from the empty one by inserts of
non-negative priority, deleteMax, peeks and resets, `deleteMax` prints `(L - 1, x)` where `L - 1`
is the largest priority of any stored entry and `(L - 1, x)` is the earliest-inserted entry of that
priority still stored, and it removes exactly that entry from what is stored. -/
theorem C12_bucket_deleteMax_fifo (ops : List BucketOp) (hv : ∀ op ∈ ops, op.valid = true)
    (hL : 1 < (bucketRun ops).length) :
    ∃ x : Int,
      (bucketDeleteMax (bucketRun ops)).1 = some (((bucketRun ops).length : Int) - 1, x) ∧
      (((bucketRun ops).length : Int) - 1, x) ∈ stored (bucketRun ops) ∧
      (∀ e ∈ stored (bucketRun ops), e.1 ≤ ((bucketRun ops).length : Int) - 1) ∧
      List.Perm (stored (bucketRun ops)) (bucketPending ops) ∧
      (bucketPending ops).find? (fun e => decide (e.1 = ((bucketRun ops).length : Int) - 1))
        = some (((bucketRun ops).length : Int) - 1, x) ∧
      List.Perm (stored (bucketRun ops))
        ((((bucketRun ops).length : Int) - 1, x) :: stored (bucketDeleteMax (bucketRun ops)).2) ∧
      bucketPending (ops ++ [BucketOp.deleteMax])
        = (bucketPending ops).erase (((bucketRun ops).length : Int) - 1, x) ∧
      List.Perm (stored (bucketDeleteMax (bucketRun ops)).2)
        (bucketPending (ops ++ [BucketOp.deleteMax])) := by
  have hr := bucketPending_rel ops hv
  obtain ⟨y, d1, d2, d3, d4, d5, _⟩ := bRel_deleteMax _ _ hr (by omega)
  have hpend : bucketPending (ops ++ [BucketOp.deleteMax])
      = (bucketPending ops).erase (((bucketRun ops).length : Int) - 1, y) := by
    rw [bucketPending_deleteMax, d1]
  refine ⟨y, d1, hr.2.1.symm.subset d3, ?_, hr.2.1, d4, d5, hpend, ?_⟩
  · intro e he
    have := mem_storedFrom_bounds _ 0 e he
    omega
  · rw [hpend]
    exact d2.2.1

/-- Witness for C12: two payloads queued at priority 4 and one at priority 2. -/
theorem C12_bucket_deleteMax_fifo_witness :
    (∀ op ∈ [BucketOp.insert (4, 1), BucketOp.insert (4, 2), BucketOp.insert (2, 3)],
      op.valid = true) ∧
    1 < (bucketRun [BucketOp.insert (4, 1), BucketOp.insert (4, 2),
      BucketOp.insert (2, 3)]).length ∧
    ∃ x : Int,
      (bucketDeleteMax (bucketRun [BucketOp.insert (4, 1), BucketOp.insert (4, 2),
        BucketOp.insert (2, 3)])).1
        = some (((bucketRun [BucketOp.insert (4, 1), BucketOp.insert (4, 2),
            BucketOp.insert (2, 3)]).length : Int) - 1, x) ∧
      (bucketPending [BucketOp.insert (4, 1), BucketOp.insert (4, 2),
        BucketOp.insert (2, 3)]).find?
          (fun e => decide (e.1 = ((bucketRun [BucketOp.insert (4, 1), BucketOp.insert (4, 2),
            BucketOp.insert (2, 3)]).length : Int) - 1))
        = some (((bucketRun [BucketOp.insert (4, 1), BucketOp.insert (4, 2),
            BucketOp.insert (2, 3)]).length : Int) - 1, x) := by
  refine ⟨by decide, by decide, ?_⟩
  obtain ⟨x, h1, _, _, _, h5, _⟩ := C12_bucket_deleteMax_fifo
    [BucketOp.insert (4, 1), BucketOp.insert (4, 2), BucketOp.insert (2, 3)] (by decide)
    (by decide)
  exact ⟨x, h1, h5⟩

theorem bucketInserts_rel : ∀ (ps : List Entry) (v : Buckets) (a : List Entry), BRel v a →
    (∀ p ∈ ps, (0 : Int) ≤ p.1) → BRel (ps.foldl bucketInsert v) (a ++ ps) := by
  intro ps
  induction ps with
  | nil =>
    intro v a hr _
    rw [List.append_nil]
    exact hr
  | cons p ps ih =>
    intro v a hr hp
    have h1 := ih (bucketInsert v p) (a ++ [p])
      (bRel_insert v a p hr (hp p (List.mem_cons_self _ _)))
      (fun r hr2 => hp r (List.mem_cons_of_mem _ hr2))
    rw [List.append_assoc] at h1
    exact h1

theorem bucketDeletes_fifo : ∀ (n : Nat) (v : Buckets) (a : List Entry), BRel v a →
    ∃ a2 : List Entry, BRel (bucketDeletes n v).2 a2 ∧
      (∀ q : Int, (bucketDeletes n v).1.filter (fun e => decide (e.1 = q))
          ++ a2.filter (fun e => decide (e.1 = q)) = a.filter (fun e => decide (e.1 = q))) ∧
      List.Sorted (fun x y : Entry => x.1 ≥ y.1) (bucketDeletes n v).1 := by
  intro n
  induction n with
  | zero =>
    intro v a hr
    exact ⟨a, hr, fun q => rfl, List.sorted_nil⟩
  | succ n ih =>
    intro v a hr
    by_cases hs : v.length ≤ 1
    · rw [bucketDeletes_short _ v hs]
      exact ⟨a, hr, fun q => rfl, List.sorted_nil⟩
    · obtain ⟨y, d1, d2, _, _, d5, d6⟩ := bRel_deleteMax v a hr (by omega)
      obtain ⟨a2, i1, i2, i3⟩ := ih _ _ d2
      have e1 : (bucketDeletes (n + 1) v).1
          = ((v.length : Int) - 1, y) :: (bucketDeletes n (bucketDeleteMax v).2).1 := by
        rw [bucketDeletes, d1]
        rfl
      have e2 : (bucketDeletes (n + 1) v).2 = (bucketDeletes n (bucketDeleteMax v).2).2 := by
        rw [bucketDeletes]
      rw [e1, e2]
      refine ⟨a2, i1, fun q => ?_, ?_⟩
      · rw [d6 q, ← i2 q, List.filter_cons]
        by_cases hq : (v.length : Int) - 1 = q
        · rw [if_pos hq, if_pos (by simpa using hq)]
          rfl
        · rw [if_neg hq, if_neg (by simpa using hq)]
          rfl
      · rw [List.sorted_cons]
        refine ⟨fun o ho => ?_, i3⟩
        have hp := (bucketDeletes_spec n _ d2.1).2.1
        have ho1 : o ∈ stored (bucketDeleteMax v).2 := hp.subset (List.mem_append_left _ ho)
        have ho2 : o ∈ stored v := d5.symm.subset (List.mem_cons_of_mem _ ho1)
        have := mem_storedFrom_bounds _ 0 o ho2
        show (v.length : Int) - 1 ≥ o.1
        omega

/-- C20: for every sequence of inserts whose priorities are all at least 1, applied with the same
payloads to an empty sorted list and an empty bucket vector, one deleteMax per inserted entry
prints the same sequence of entries from both engines (the stable descending sort of the
insertion sequence), each call printing an entry, after which a deleteMax on either engine prints
nothing. -/
theorem C20_list_bucket_same_drain (ps : List Entry) (hps : ∀ p ∈ ps, (1 : Int) ≤ p.1) :
    (bucketDeletes ps.length (ps.foldl bucketInsert [])).1
      = (listDeletes ps.length (ps.foldl listInsert [])).1 ∧
    (bucketDeletes ps.length (ps.foldl bucketInsert [])).1 = stableSortDesc ps ∧
    (bucketDeletes ps.length (ps.foldl bucketInsert [])).1.length = ps.length ∧
    (bucketDeleteMax (bucketDeletes ps.length (ps.foldl bucketInsert [])).2).1 = none ∧
    (listDeleteMax (listDeletes ps.length (ps.foldl listInsert [])).2).1 = none := by
  have hps0 : ∀ p ∈ ps, (0 : Int) ≤ p.1 := fun p hp => by
    have := hps p hp
    omega
  obtain ⟨i1, i2⟩ := bucketInserts_spec ps [] bucketInv_nil hps0
  have e0 : stored [] = [] := rfl
  rw [e0, List.append_nil] at i2
  obtain ⟨d1, d2, d3, d4⟩ := bucketDeletes_spec ps.length _ i1
  have hlen := d4 (by rw [i2.length_eq])
  have hperm := d2.trans i2
  have hnil : stored (bucketDeletes ps.length (ps.foldl bucketInsert [])).2 = [] := by
    rw [List.eq_nil_iff_forall_not_mem]
    intro e he
    have h1 := mem_storedFrom_bounds _ 0 e he
    have h2 := hps e (hperm.subset (List.mem_append_right _ he))
    omega
  have hrel := bucketInserts_rel ps [] [] bRel_nil hps0
  rw [List.nil_append] at hrel
  obtain ⟨a2, f1, f2, f3⟩ := bucketDeletes_fifo ps.length _ _ hrel
  have ha2 : a2 = [] := by
    have h1 := f1.2.1
    rw [hnil] at h1
    exact h1.nil_eq.symm
  rw [hnil, List.append_nil] at hperm
  have hstable : IsStableSortDesc ps (bucketDeletes ps.length (ps.foldl bucketInsert [])).1 := by
    refine ⟨hperm, f3, fun q => ?_⟩
    have h1 := f2 q
    rw [ha2] at h1
    simpa using h1
  have hlist := listInserts_spec ps [] List.sorted_nil
  rw [List.nil_append] at hlist
  have hll : (ps.foldl listInsert []).length = ps.length := hlist.1.length_eq
  have hb := isStableSortDesc_eq ps _ hstable
  refine ⟨?_, hb, hperm.length_eq, ?_, ?_⟩
  · rw [hb, listDeletes_eq, ← hll, List.take_length]
    exact (isStableSortDesc_eq ps _ hlist).symm
  · rw [bucketDeleteMax_short _ hlen]
  · rw [listDeletes_eq, ← hll, List.drop_length]
    rfl

/-- Witness for C20: priorities 5, 3, 5 with payloads 1, 2, 3. -/
theorem C20_list_bucket_same_drain_witness :
    (∀ p ∈ [((5 : Int), (1 : Int)), (3, 2), (5, 3)], (1 : Int) ≤ p.1) ∧
    (bucketDeletes 3 ([((5 : Int), (1 : Int)), (3, 2), (5, 3)].foldl bucketInsert [])).1
      = (listDeletes 3 ([((5 : Int), (1 : Int)), (3, 2), (5, 3)].foldl listInsert [])).1 :=
  ⟨by decide, (C20_list_bucket_same_drain [(5, 1), (3, 2), (5, 3)] (by decide)).1⟩

end PQ3
